import Mathlib

/-!
Verification of the `vpn_kill_users` management client
(`vpn_kill_users.py`): a shallow embedding of its parsing,
reconciliation, kill and teardown logic, with theorems about the
frozen specification claims.
-/

namespace VpnKill

/-- Python `a.startswith(b)` on strings, modelled on the character lists. -/
def pyStartswith (s pre : String) : Bool :=
  pre.toList.isPrefixOf s.toList

/-- Result classification `VPNmgmt._success`: the reply is a success
iff it begins with `SUCCESS` or with `INFO` (source lines 99-111). -/
def _success (input_string : String) : Bool :=
  if pyStartswith input_string "SUCCESS" then true
  else if pyStartswith input_string "INFO" then true
  else false


/-! ## Kill executor (`VPNmgmt.kill`, source lines 149-165)

`kill` talks to the daemon through `self._send`.  For the classification
claims the relevant observables are which command strings are sent and
what the daemon replies; we model the daemon as a reply oracle
`String → String` and record the transcript of commands sent. -/

/-- Embedding of `VPNmgmt.kill(user, commit)` (source lines 149-165).
Returns the list of commands handed to `_send` (the transcript) together
with the `(self._success(ret), ret)` pair the method returns.
With `commit` it sends `'kill '+user` (with `stopon='\r\n'`, which does
not change the reply value delivered by `_send`); without `commit` it
sends the harmless `'version'` probe and ignores `user`. -/
def kill (daemon : String → String) (user : String) (commit : Bool) :
    List String × (Bool × String) :=
  if commit then
    let ret := daemon ("kill " ++ user)
    (["kill " ++ user], (_success ret, ret))
  else
    let ret := daemon "version"
    (["version"], (_success ret, ret))

/-! ## Transport teardown (`VPNmgmt.disconnect`, source lines 62-71)

The socket is modelled by the state an exception-safety claim can
observe: whether sends currently succeed (the daemon may have gone
away), and whether the socket has been shut down in both directions and
closed.  `_send('quit')` is abstracted to its exception behaviour — it
either returns or raises `socket.error` — which is the only aspect
`disconnect` depends on; the drain loop inside `_send` is modelled in
full further below for the command-interpreter claims. -/

structure PySocket where
  /-- sends succeed; `false` models the daemon having gone away, where
  `self._send('quit')` raises `socket.error`. -/
  sendOk : Bool
  /-- whether `sock.shutdown(socket.SHUT_RDWR)` has been performed. -/
  isShutdown : Bool
  /-- whether `sock.close()` has been performed. -/
  isClosed : Bool
deriving Repr, DecidableEq

/-- Exceptions that the modelled fragments can raise. -/
inductive PyErr where
  | socketError
  | valueError
  | indexError
deriving Repr, DecidableEq

/-- Effect of `self._send('quit')` on a socket: raises `socket.error`
when the daemon is gone, otherwise returns (the reply is irrelevant
to `disconnect`, which discards it). -/
def sendQuit (s : PySocket) : Except PyErr PySocket :=
  if s.sendOk then .ok s else .error .socketError

/-- Effect of `self.sock.shutdown(socket.SHUT_RDWR)`. -/
def sockShutdown (s : PySocket) : PySocket :=
  { s with isShutdown := true }

/-- Effect of `self.sock.close()`. -/
def sockClose (s : PySocket) : PySocket :=
  { s with isClosed := true }

/-- Embedding of `VPNmgmt.disconnect` (source lines 62-71):
`try: self._send('quit') except socket.error: pass`, then
`self.sock.shutdown(socket.SHUT_RDWR)` and `self.sock.close()`.
An `Except.error` result would model an uncaught exception escaping
the method. -/
def disconnect (s : PySocket) : Except PyErr PySocket :=
  let s1 :=
    match sendQuit s with
    | .ok s' => s'
    | .error _ => s
  .ok (sockClose (sockShutdown s1))

/-! ## Python dict model

`VPNmgmt.getusers` and `VPNkiller.get_users_to_disconnect` build and
filter Python dicts keyed by username.  A dict is modelled as an
insertion-ordered association list with unique keys: `users[k] = v`
overwrites in place when `k` is present and appends otherwise, and
`del users[k]` removes the binding of `k`. -/

/-- A connected-session record as stored by `getusers`:
the regex match tuple `(username, "ip:port")`. -/
abbrev Session := String × String

/-- Python `users[k] = v` on the association-list dict model. -/
def pyDictSet (d : List (String × Session)) (k : String) (v : Session) :
    List (String × Session) :=
  if d.any (fun p => p.1 = k) then
    d.map (fun p => if p.1 = k then (k, v) else p)
  else
    d ++ [(k, v)]

/-- Python `del d[k]` on the dict model (removes the binding of `k`;
on a dict the key occurs at most once). -/
def pyDictDel (d : List (String × Session)) (k : String) :
    List (String × Session) :=
  d.filter (fun p => decide (p.1 ≠ k))

/-- Embedding of `VPNkiller.get_users_to_disconnect` (source lines
203-225): copy the connected-user dict, then iterate over the
connected users and `del` every user the IAM oracle
(`self.iam.user_allowed_to_vpn`) allows. -/
def get_users_to_disconnect (users_connected_to_vpn : List (String × Session))
    (user_allowed_to_vpn : String → Bool) : List (String × Session) :=
  (users_connected_to_vpn.map Prod.fst).foldl
    (fun users_we_plan_to_disconnect user =>
      if user_allowed_to_vpn user then
        pyDictDel users_we_plan_to_disconnect user
      else
        users_we_plan_to_disconnect)
    users_connected_to_vpn

/-! ## Orchestrator fragment (`VPNkiller.disconnect_user` and `main`,
source lines 227-236 and 239-262)

Python values reaching `disconnect_user` are dynamically typed; the
method only uses its `user_ref` argument as an indexable sequence.  We
therefore model such a value by its sequence view, a `List String`:
the session tuple `(username, "ip:port")` is the two-element list, and
a Python string is the list of its one-character substrings. -/

/-- Python sequence view of a string: a string is a sequence of its
one-character substrings (what 2-target unpacking and indexing see). -/
def pySeqOfString (s : String) : List String :=
  s.toList.map (fun c => String.mk [c])

/-- Python `seq[i]`: raises `IndexError` when out of range. -/
def pyIndex (l : List String) (i : Nat) : Except PyErr String :=
  match l[i]? with
  | some x => .ok x
  | none => .error .indexError

/-- Split a character list at every occurrence of `c` (the pieces do
not contain `c`; `n+1` pieces for `n` separators). -/
def splitOnChar (c : Char) : List Char → List (List Char)
  | [] => [[]]
  | d :: rest =>
    if d = c then
      [] :: splitOnChar c rest
    else
      match splitOnChar c rest with
      | [] => [[d]]
      | l :: ls => (d :: l) :: ls

/-- Python `s.split(':')` (which always returns a non-empty list). -/
def pySplitColon (s : String) : List String :=
  (splitOnChar ':' s.toList).map String.mk

/-- Observable effects of one `disconnect_user` call: the lines printed
and the `VPNmgmt.kill` invocations `(user, commit)` it performed. -/
structure DisconnectTrace where
  printed : List String
  killCalls : List (String × Bool)
  result : Bool
deriving Repr, DecidableEq

/-- Embedding of `VPNkiller.disconnect_user(user_ref, commit)` (source
lines 227-236): `user = user_ref[0]`, `src_ip = user_ref[1].split(':')[0]`,
print `"disconnecting from VPN: {user} / {ip}"`, then
`kill_tuple = self.vpn.kill(user, commit=commit)` and return
`kill_tuple[0]`.  (`str.split` always returns a non-empty list, so the
`[0]` after `split` cannot raise.) -/
def disconnect_user (daemon : String → String) (user_ref : List String)
    (commit : Bool) : Except PyErr DisconnectTrace := do
  let user ← pyIndex user_ref 0
  let endpoint ← pyIndex user_ref 1
  let src_ip := (pySplitColon endpoint).headD ""
  let msg := "disconnecting from VPN: " ++ user ++ " / " ++ src_ip
  let kill_tuple := kill daemon user commit
  pure ⟨[msg], [(user, commit)], kill_tuple.2.1⟩

/-- Embedding of the eviction loop of `main` (source lines 259-260):

    for _user, user_ref in users_to_disconnect:
        killer_object.disconnect_user(user_ref, commit=not args.noop)

Iterating a Python dict yields its keys, which here are username
strings; the 2-target unpacking of a key string succeeds only when the
username has exactly two characters (raising `ValueError` otherwise)
and then binds `user_ref` to the second character.  The result
accumulates the printed lines and kill invocations of the whole loop. -/
def mainKillLoop (daemon : String → String)
    (users_to_disconnect : List (String × Session)) (noop : Bool) :
    Except PyErr (List String × List (String × Bool)) :=
  (users_to_disconnect.map Prod.fst).foldlM
    (fun acc key =>
      match pySeqOfString key with
      | [_user, user_ref] => do
          let tr ← disconnect_user daemon (pySeqOfString user_ref) (!noop)
          pure (acc.1 ++ tr.printed, acc.2 ++ tr.killCalls)
      | _ => .error .valueError)
    ([], [])

/-! ## Command interpreter drain loop (`VPNmgmt._send`, source lines
73-97)

After writing the command, `_send` loops: `select` with a one-second
timeout; if the socket is readable, `recv(1024)` is appended to the
accumulator; the loop breaks when no data arrived (`buf == ''`) or when
a configured `stopon` marker occurs in the accumulator.  The incoming
side is modelled by `incoming : Nat → Option String`, giving the result
of the k-th poll: `none` is a `select` timeout (no data), `some s` a
readable socket whose `recv` returned `s` (`some ""` is a peer that
closed the connection).  The loop itself is given a fuel argument;
`none` means the fuel ran out with the loop still running, so a result
`some data` for every large enough fuel expresses termination. -/

/-- Python `data.find(stop) != -1`: `stop` occurs as a substring. -/
def strFind (data stop : String) : Bool :=
  data.toList.tails.any (fun t => stop.toList.isPrefixOf t)

/-- The accumulator contents after `k` iterations of the drain loop:
concatenation of the first `k` received chunks (a timed-out poll
contributes nothing, exactly as `buf = ''` does in the source). -/
def recvAccum (incoming : Nat → Option String) : Nat → String
  | 0 => ""
  | k+1 => recvAccum incoming k ++ ((incoming (k)).getD "")

/-- The `break` condition of the drain loop at iteration `k` (source
line 95): `buf == '' or stopon is not None and data.find(stopon) != -1`,
evaluated on the accumulator after appending the k-th chunk. -/
def drainStops (stopon : Option String) (incoming : Nat → Option String)
    (k : Nat) : Bool :=
  (incoming k).getD "" = "" ||
    (match stopon with
     | none => false
     | some m => strFind (recvAccum incoming (k+1)) m)

/-- Embedding of the `while True` drain loop of `VPNmgmt._send`
(source lines 84-97), with fuel.  `drainLoop stopon incoming fuel k data`
runs the loop starting at poll number `k` with accumulator `data`. -/
def drainLoop (stopon : Option String) (incoming : Nat → Option String) :
    Nat → Nat → String → Option String
  | 0, _, _ => none
  | fuel+1, k, data =>
    let buf := (incoming k).getD ""
    let data1 := data ++ buf
    if buf = "" ||
        (match stopon with
         | none => false
         | some m => strFind data1 m) then
      some data1
    else
      drainLoop stopon incoming fuel (k+1) data1

/-! ## Status parser (`VPNmgmt.getusers`, source lines 121-147)

`getusers` classifies the raw `status 2` text and extracts session
records with `re.findall`.  The two patterns used are

  `'^TITLE'`                                     (no flags, line 130)
  `r'^CLIENT_LIST[,\t](.+)[,\t](\d+\.\d+\.\d+\.\d+\:\d+)[,\t]'`
                                                 (re.MULTILINE, line 134)
  `r',(.+),(\d+\.\d+\.\d+\.\d+\:\d+)'`           (no flags, line 141)

They are built from literals, single-character classes and greedy `+`
over a class, so we embed exactly that fragment of Python regexes: a
backtracking matcher in continuation style whose greedy `plus` tries
the longest class run first and gives back one character at a time,
which is Python's disambiguation policy for these patterns. -/

/-- The regex fragment used by the source: literals, one character from
a class, greedy one-or-more of a class, concatenation, capture group. -/
inductive RE where
  | lit (s : String)
  | cls (p : Char → Bool)
  | plus (p : Char → Bool)
  | cat (r1 r2 : RE)
  | grp (i : Nat) (r : RE)

/-- Captured groups: group index paired with the captured characters. -/
abbrev Caps := List (Nat × List Char)

/-- Greedy backtracking for `plus`: try consuming `n` class characters,
then `n-1`, ..., down to `1`; the caller passes the maximal class run
length as `n`, so the longest run is tried first. -/
def tryPlus (k : List Char → Option α) (cs : List Char) : Nat → Option α
  | 0 => none
  | n+1 =>
    match k (cs.drop (n+1)) with
    | some res => some res
    | none => tryPlus k cs n

/-- Backtracking matcher in continuation style: `matchk r cs caps k`
attempts to match `r` at the start of `cs` and hands the remaining
input and extended captures to `k`, trying alternatives in Python's
preference order (greedy quantifiers longest first). -/
def matchk : RE → List Char → Caps → (List Char → Caps → Option α) → Option α
  | .lit s, cs, caps, k =>
    if s.toList.isPrefixOf cs then k (cs.drop s.toList.length) caps else none
  | .cls p, cs, caps, k =>
    match cs with
    | [] => none
    | c :: cs' => if p c then k cs' caps else none
  | .plus p, cs, caps, k =>
    tryPlus (fun cs' => k cs' caps) cs (cs.takeWhile p).length
  | .cat r1 r2, cs, caps, k =>
    matchk r1 cs caps (fun cs' caps' => matchk r2 cs' caps' k)
  | .grp i r, cs, caps, k =>
    matchk r cs caps
      (fun cs' caps' => k cs' ((i, cs.take (cs.length - cs'.length)) :: caps'))

/-- Language of the regex fragment (`plus` over a single-character
class has the runs of that class as its language). -/
def Lang : RE → List Char → Prop
  | .lit s, w => w = s.toList
  | .cls p, w => ∃ c, w = [c] ∧ p c = true
  | .plus p, w => w ≠ [] ∧ ∀ c ∈ w, p c = true
  | .cat r1 r2, w => ∃ w1 w2, w = w1 ++ w2 ∧ Lang r1 w1 ∧ Lang r2 w2
  | .grp _ r, w => Lang r w

/-- Run a two-group pattern at the current position: on success return
`(group1, group2, remaining input)`. -/
def matchTwo (r : RE) (cs : List Char) :
    Option (List Char × List Char × List Char) :=
  matchk r cs []
    (fun cs' caps =>
      match caps.lookup 1, caps.lookup 2 with
      | some g1, some g2 => some (g1, g2, cs')
      | _, _ => none)

/-- Which numbered capture groups occur inside a pattern fragment, and
with what sub-pattern (used to state capture soundness of the
matcher). -/
inductive GrpIn : RE → Nat → RE → Prop where
  | self (i : Nat) (r : RE) : GrpIn (.grp i r) i r
  | inner (j : Nat) (r : RE) (i : Nat) (r' : RE) :
      GrpIn r i r' → GrpIn (.grp j r) i r'
  | catL (a b : RE) (i : Nat) (r' : RE) : GrpIn a i r' → GrpIn (.cat a b) i r'
  | catR (a b : RE) (i : Nat) (r' : RE) : GrpIn b i r' → GrpIn (.cat a b) i r'

/-- Whether a pattern fragment contains any capture group. -/
def hasGrp : RE → Bool
  | .lit _ => false
  | .cls _ => false
  | .plus _ => false
  | .cat a b => hasGrp a || hasGrp b
  | .grp _ _ => true

/-- Character class `[,\t]`. -/
def sepClass (c : Char) : Bool := c = ',' || c = '\t'

/-- Character class `.` (any character except a newline; `re.DOTALL`
is not set). -/
def dotClass (c : Char) : Bool := decide (c ≠ '\n')

/-- Character class `\d`. -/
def digitClass (c : Char) : Bool := c.isDigit

/-- The sub-pattern `\d+\.\d+\.\d+\.\d+\:\d+` (a dotted-quad `ip:port`). -/
def ipv4portRE : RE :=
  .cat (.plus digitClass) (.cat (.lit ".")
    (.cat (.plus digitClass) (.cat (.lit ".")
      (.cat (.plus digitClass) (.cat (.lit ".")
        (.cat (.plus digitClass) (.cat (.lit ":") (.plus digitClass))))))))

/-- The version-2/3 record pattern
`CLIENT_LIST[,\t](.+)[,\t](\d+\.\d+\.\d+\.\d+\:\d+)[,\t]` (its `^`
anchor is handled by the scanner below). -/
def clientListRE : RE :=
  .cat (.lit "CLIENT_LIST") (.cat (.cls sepClass)
    (.cat (.grp 1 (.plus dotClass)) (.cat (.cls sepClass)
      (.cat (.grp 2 ipv4portRE) (.cls sepClass)))))

/-- The version-1 fallback pattern `,(.+),(\d+\.\d+\.\d+\.\d+\:\d+)`. -/
def v1RE : RE :=
  .cat (.lit ",") (.cat (.grp 1 (.plus dotClass))
    (.cat (.lit ",") (.grp 2 ipv4portRE)))

/-- Whether the character before the current scan position was a
newline (the state `re.MULTILINE` `^` checks). -/
def lastIsNL (l : List Char) : Bool := l.getLast? = some '\n'

/-- Embedding of `re.findall(pattern, data)` for a two-group pattern of
the fragment: scan positions left to right; at each position (for an
`^`-anchored `re.MULTILINE` pattern, each line-start position) attempt
a match; on success emit the group pair and resume at the match end,
otherwise advance one character.  The fuel argument is structural
bookkeeping only: every step consumes at least one character, and the
entry point below supplies more fuel than there are characters.  (None
of the source's patterns can match the empty string, so a successful
match always consumes at least one character; the guard mirrors this.) -/
def findAllFuel (anch : Bool) (r : RE) :
    Nat → List Char → Bool → List (List Char × List Char)
  | 0, _, _ => []
  | _+1, [], _ => []
  | fuel+1, c :: rest, atStart =>
    if anch && !atStart then
      findAllFuel anch r fuel rest (decide (c = '\n'))
    else
      match matchTwo r (c :: rest) with
      | none => findAllFuel anch r fuel rest (decide (c = '\n'))
      | some (g1, g2, cs') =>
        if cs'.length < rest.length + 1 then
          (g1, g2) ::
            findAllFuel anch r fuel cs'
              (lastIsNL ((c :: rest).take (rest.length + 1 - cs'.length)))
        else
          findAllFuel anch r fuel rest (decide (c = '\n'))

/-- Embedding of `re.findall` over the whole input (`anch` true for an
`^`-anchored `re.MULTILINE` pattern). -/
def findAll (anch : Bool) (r : RE) (cs : List Char) :
    List (List Char × List Char) :=
  findAllFuel anch r (cs.length + 1) cs true

/-- The dict-building loop of `getusers` (source lines 143-147): the
matched `(username, "ip:port")` tuples are folded into the dict with
`users[matchset[0]] = matchset`, so a later match for the same
username overwrites an earlier one. -/
def mkUserDict (matched : List (List Char × List Char)) : List (String × Session) :=
  matched.foldl
    (fun users m => pyDictSet users (String.mk m.1) (String.mk m.1, String.mk m.2))
    []

/-- Embedding of `VPNmgmt.getusers` (source lines 121-147) applied to
the raw `status 2` text.  The version sniff `re.findall('^TITLE', data)`
is compiled without `re.MULTILINE`, so its `^` only matches at the very
start of the string: the version-2/3 branch is taken iff `data` begins
with `TITLE`. -/
def getusers (data : String) : List (String × Session) :=
  if pyStartswith data "TITLE" then
    mkUserDict (findAll true clientListRE data.toList)
  else
    mkUserDict (findAll false v1RE data.toList)

/-! ## Specification-side predicates

These definitions render wordings of the specification and claims —
"contains a line beginning with TITLE", "a well-formed `ip:port`
endpoint" — as decidable predicates, for comparison with what the
embedded source functions do. -/

/-- Claim C5's reading of the version sniff: some line of the text
begins with `TITLE`. -/
def containsTitleLine (data : String) : Bool :=
  (splitOnChar '\n' data.toList).any (fun l => "TITLE".toList.isPrefixOf l)

/-- A well-formed `ip:port` endpoint as the claims describe it: a
dotted-quad IPv4 address (four non-empty digit runs separated by
dots), a colon, and a non-empty digit-run port. -/
def isIpPortB (cs : List Char) : Bool :=
  match splitOnChar ':' cs with
  | [addr, port] =>
    (splitOnChar '.' addr).length = 4 &&
      (splitOnChar '.' addr).all (fun d => !d.isEmpty && d.all Char.isDigit) &&
      (!port.isEmpty && port.all Char.isDigit)
  | _ => false

/-- Whether a line contains a well-formed `ip:port` endpoint as a
substring. -/
def containsIpPortB (line : List Char) : Bool :=
  line.tails.any (fun t =>
    (List.range (t.length + 1)).any (fun n => isIpPortB (t.take n)))

/-- Whether a character list starts with a comma-or-tab separator. -/
def headIsSep : List Char → Bool
  | [] => false
  | c :: _ => sepClass c

/-- Whether the list starts with a well-formed `ip:port` endpoint
followed immediately by a comma-or-tab separator. -/
def startsWithEndpointSep (cs : List Char) : Bool :=
  (List.range (cs.length + 1)).any (fun n =>
    isIpPortB (cs.take n) && headIsSep (cs.drop n))

/-- No position of the list carries a comma-or-tab separator followed
by a well-formed `ip:port` endpoint and another separator.  Applied to
the text from a record's post-endpoint separator onwards, this says
the trailing fields encode no second separator-delimited endpoint —
exactly the condition under which the source pattern's greedy `(.+)`
cannot extend the username capture past the record's endpoint. -/
def noSecondEndpoint : List Char → Bool
  | [] => true
  | c :: t => !(sepClass c && startsWithEndpointSep t) && noSecondEndpoint t

/-- Join pieces with a separator character (left inverse of
`splitOnChar`). -/
def joinSep (c : Char) : List (List Char) → List Char
  | [] => []
  | [a] => a
  | a :: b :: rest => a ++ c :: joinSep c (b :: rest)

/-- Structural form of a well-formed `ip:port` endpoint: five non-empty
digit runs arranged as `d1.d2.d3.d4:d5`. -/
def IpShape (w : List Char) : Prop :=
  ∃ d1 d2 d3 d4 d5 : List Char,
    w = d1 ++ '.' :: (d2 ++ '.' :: (d3 ++ '.' :: (d4 ++ ':' :: d5))) ∧
    (d1 ≠ [] ∧ ∀ c ∈ d1, c.isDigit = true) ∧
    (d2 ≠ [] ∧ ∀ c ∈ d2, c.isDigit = true) ∧
    (d3 ≠ [] ∧ ∀ c ∈ d3, c.isDigit = true) ∧
    (d4 ≠ [] ∧ ∀ c ∈ d4, c.isDigit = true) ∧
    (d5 ≠ [] ∧ ∀ c ∈ d5, c.isDigit = true)


/-! ## Abstract status dumps for the version-2/3 record claim

A dump is a list of physical lines: `CLIENT_LIST` record lines carrying
a username, a separator-delimited `ip:port` endpoint and trailing
fields, and arbitrary other lines (`TITLE`, headers, `END`, ...). -/

/-- One physical line of a version-2/3 status dump. -/
inductive StatusLine where
  | record (s0 : Char) (u : List Char) (s1 : Char) (ip : List Char)
      (s2 : Char) (rest : List Char)
  | other (l : List Char)

/-- The raw text of one line: a record renders as
`CLIENT_LIST<s0><u><s1><ip><s2><rest>`. -/
def renderLine : StatusLine → List Char
  | .record s0 u s1 ip s2 rest =>
    "CLIENT_LIST".toList ++ s0 :: (u ++ s1 :: (ip ++ s2 :: rest))
  | .other l => l

/-- Well-formedness of a line, following the claim's wording: a record
has comma-or-tab separators, a non-empty single-line username, a valid
dotted-quad `ip:port` endpoint and a separator after the endpoint; the
trailing fields stay on the line and carry no further
separator-delimited endpoint-shaped field (so that the record's
endpoint is the last one the greedy username group could reach; the
trailing fields may otherwise contain anything, including colons).
Any other line stays on one line and does not begin with
`CLIENT_LIST`. -/
def wfLine : StatusLine → Bool
  | .record s0 u s1 ip s2 rest =>
    sepClass s0 && sepClass s1 && sepClass s2 &&
      (!u.isEmpty && u.all (fun c => decide (c ≠ '\n'))) &&
      isIpPortB ip &&
      (rest.all (fun c => decide (c ≠ '\n')) && noSecondEndpoint (s2 :: rest))
  | .other l =>
    l.all (fun c => decide (c ≠ '\n')) && !("CLIENT_LIST".toList.isPrefixOf l)

/-- The `(username, "ip:port")` pairs of the record lines, in order. -/
def clientRecords : List StatusLine → List (List Char × List Char)
  | [] => []
  | .record _ u _ ip _ _ :: rest => (u, ip) :: clientRecords rest
  | .other _ :: rest => clientRecords rest

/-- The raw text of a dump: its lines joined by newlines. -/
def renderDump (lines : List StatusLine) : String :=
  String.mk (joinSep '\n' (lines.map renderLine))

/-! ## Helper lemmas -/

lemma isPre_iff (a : List Char) : ∀ b, a.isPrefixOf b = true ↔ ∃ t, a ++ t = b := by
  induction a with
  | nil => intro b; simp [List.isPrefixOf]
  | cons c cs ih =>
    intro b
    cases b with
    | nil => simp [List.isPrefixOf]
    | cons d ds =>
      simp only [List.isPrefixOf, Bool.and_eq_true, beq_iff_eq, ih ds]
      constructor
      · rintro ⟨rfl, t, rfl⟩; exact ⟨t, rfl⟩
      · rintro ⟨t, h⟩
        injection h with h1 h2
        exact ⟨h1, t, h2⟩

lemma pyStartswith_iff (s p : String) :
    pyStartswith s p = true ↔ ∃ t, p.toList ++ t = s.toList := by
  rw [pyStartswith, isPre_iff]

lemma pyStartswith_mono (s a b : String)
    (hab : a.toList.isPrefixOf b.toList = true) (h : pyStartswith s b = true) :
    pyStartswith s a = true := by
  rw [pyStartswith_iff] at h ⊢
  rw [isPre_iff] at hab
  obtain ⟨t1, h1⟩ := hab
  obtain ⟨t2, h2⟩ := h
  exact ⟨t1 ++ t2, by rw [← h2, ← h1]; simp⟩

lemma pyStartswith_false_of_head (s a : String) (c d : Char) (t u : List Char)
    (hs : s.toList = c :: t) (ha : a.toList = d :: u) (hne : d ≠ c) :
    pyStartswith s a = false := by
  rw [pyStartswith, hs, ha]
  simp [List.isPrefixOf, hne]

lemma _success_eq (s : String) :
    _success s = (pyStartswith s "SUCCESS" || pyStartswith s "INFO") := by
  rw [_success]
  cases h1 : pyStartswith s "SUCCESS" <;> cases h2 : pyStartswith s "INFO" <;> simp

/-! ## Claims C6, C7: the kill executor -/

/-- C6: for every username `u` and daemon reply `r`, `kill(u, commit=true)`
returns the pair `(s, r)` where `s` is true iff `r` begins with `SUCCESS`
or with `INFO`; in particular a reply beginning `SUCCESS:` yields
`s = true` and a reply beginning `ERROR:` yields `s = false`. -/
theorem kill_commit_classification (daemon : String → String) (u r : String)
    (h : daemon ("kill " ++ u) = r) :
    (kill daemon u true).2 =
        (pyStartswith r "SUCCESS" || pyStartswith r "INFO", r) ∧
      (pyStartswith r "SUCCESS:" = true → (kill daemon u true).2.1 = true) ∧
      (pyStartswith r "ERROR:" = true → (kill daemon u true).2.1 = false) := by
  have hmain : (kill daemon u true).2 =
      (pyStartswith r "SUCCESS" || pyStartswith r "INFO", r) := by
    simp [kill, h, _success_eq]
  refine ⟨hmain, ?_, ?_⟩
  · intro hS
    have : pyStartswith r "SUCCESS" = true :=
      pyStartswith_mono r "SUCCESS" "SUCCESS:" (by decide) hS
    rw [hmain]
    simp [this]
  · intro hE
    obtain ⟨t, ht⟩ := (pyStartswith_iff r "ERROR:").1 hE
    have hr : r.toList = 'E' :: ("RROR:".toList ++ t) := by
      rw [← ht]; rfl
    have h1 : pyStartswith r "SUCCESS" = false :=
      pyStartswith_false_of_head r "SUCCESS" 'E' 'S' _ _ hr rfl (by decide)
    have h2 : pyStartswith r "INFO" = false :=
      pyStartswith_false_of_head r "INFO" 'E' 'I' _ _ hr rfl (by decide)
    rw [hmain]
    simp [h1, h2]

/-- Witness for C6 at a concrete daemon and replies. -/
theorem kill_commit_classification_witness :
    ((fun c => if c = "kill bob" then "SUCCESS: killed" else "ERROR: nope") "kill bob"
        = "SUCCESS: killed") ∧
    (kill (fun c => if c = "kill bob" then "SUCCESS: killed" else "ERROR: nope")
        "bob" true).2 =
      (pyStartswith "SUCCESS: killed" "SUCCESS" || pyStartswith "SUCCESS: killed" "INFO",
        "SUCCESS: killed") :=
  ⟨by decide,
    (kill_commit_classification
      (fun c => if c = "kill bob" then "SUCCESS: killed" else "ERROR: nope")
      "bob" "SUCCESS: killed" (by decide)).1⟩

/-- C7: `kill(u, commit=false)` sends only the `version` command, never a
`kill` command, ignores the username entirely, and returns the
`SUCCESS`/`INFO`-prefix classification of the version probe's reply. -/
theorem kill_dry_run_sends_version (daemon : String → String) (u : String) :
    (kill daemon u false).1 = ["version"] ∧
      (∀ cmd ∈ (kill daemon u false).1, pyStartswith cmd "kill " = false) ∧
      (kill daemon u false).2 =
        (pyStartswith (daemon "version") "SUCCESS" ||
          pyStartswith (daemon "version") "INFO", daemon "version") ∧
      (∀ u', kill daemon u false = kill daemon u' false) := by
  refine ⟨rfl, ?_, by simp [kill, _success_eq], fun u' => rfl⟩
  intro cmd hc
  have : cmd = "version" := by simpa [kill] using hc
  subst this
  decide

/-- Witness for C7 at a concrete daemon and username. -/
theorem kill_dry_run_sends_version_witness :
    (kill (fun _ => "OpenVPN 2.4.6") "mallory" false).1 = ["version"] ∧
      pyStartswith "version" "kill " = false :=
  ⟨(kill_dry_run_sends_version (fun _ => "OpenVPN 2.4.6") "mallory").1,
    (kill_dry_run_sends_version (fun _ => "OpenVPN 2.4.6") "mallory").2.1
      "version" (by decide)⟩

/-! ## Claim C4: teardown never raises -/

/-- C4: for every socket state — including the one where the `quit` send
raises `socket.error` because the daemon has gone away — `disconnect()`
returns without an exception, and the socket ends up shut down in both
directions and closed. -/
theorem disconnect_never_raises (s : PySocket) :
    ∃ s', disconnect s = .ok s' ∧ s'.isShutdown = true ∧ s'.isClosed = true := by
  refine ⟨_, rfl, ?_, ?_⟩ <;> simp [sockClose, sockShutdown]

/-! ## Claim C1: the eviction loop of `main`

`for _user, user_ref in users_to_disconnect:` (source line 259)
iterates the dict's keys — username strings — and 2-target-unpacks
each key, instead of iterating `users_to_disconnect.items()`.  With
any username whose length differs from 2 the unpacking raises
`ValueError`; with a two-character username it binds `user_ref` to the
second character and `disconnect_user` then raises `IndexError` at
`user_ref[1]`.  Either way no notice is printed for the intended entry
and the kill executor is never invoked, although the repository's own
test (`test_95_main_good`) expects `disconnect_user` to be called once
per entry with the session value.  The theorem below evaluates the
embedded loop at such failing inputs and records what a single correct
per-entry call (as exercised by the test) produces. -/

/-- C1 (code bug): on a non-empty reconciliation result the eviction
loop of `main` raises instead of printing the notice and invoking the
kill executor once per entry: with username `alice` (length 5) the
key-string unpacking raises `ValueError`; with the two-character
username `ab` the loop reaches `disconnect_user` with `user_ref` bound
to the character `b` and raises `IndexError`; by contrast a direct
per-entry `disconnect_user` call with the session value — what the
repository's `test_95_main_good` specifies — prints the notice with
the port stripped and performs exactly one kill with the given commit
flag. -/
theorem main_loop_crashes_on_nonempty_result :
    mainKillLoop (fun _ => "SUCCESS: ok") [("alice", ("alice", "1.2.3.4:5"))] false =
        .error .valueError ∧
      mainKillLoop (fun _ => "SUCCESS: ok") [("ab", ("ab", "1.2.3.4:5"))] false =
        .error .indexError ∧
      disconnect_user (fun _ => "SUCCESS: ok") ["alice", "1.2.3.4:5"] true =
        .ok ⟨["disconnecting from VPN: alice / 1.2.3.4"], [("alice", true)], true⟩ := by
  refine ⟨rfl, rfl, rfl⟩

/-! ## Claims C2, C10: the reconciliation engine -/

lemma pyDictDel_eq_filter (d : List (String × Session)) (k : String) :
    pyDictDel d k = d.filter (fun p => decide (p.1 ≠ k)) := rfl

lemma filter_filter_comm (d : List (String × Session)) (f g : String × Session → Bool) :
    (d.filter f).filter g = d.filter (fun p => f p && g p) := by
  rw [List.filter_filter]
  congr 1
  funext p
  rw [Bool.and_comm]

/-- The delete-fold of `get_users_to_disconnect`, evaluated over an
arbitrary key list: it filters out every binding whose key occurs in
the list and is allowed. -/
lemma del_fold_eq_filter (allowed : String → Bool) :
    ∀ (ks : List String) (d : List (String × Session)),
      ks.foldl (fun acc u => if allowed u then pyDictDel acc u else acc) d =
        d.filter (fun p => !(ks.contains p.1 && allowed p.1)) := by
  intro ks
  induction ks with
  | nil => intro d; simp
  | cons k ks ih =>
    intro d
    by_cases hk : allowed k = true
    · rw [List.foldl_cons, if_pos hk, ih, pyDictDel_eq_filter, filter_filter_comm]
      congr 1
      funext p
      by_cases hpk : p.1 = k
      · simp [hpk, hk]
      · simp [hpk]
    · rw [List.foldl_cons, if_neg hk, ih]
      have hk' : allowed k = false := by simpa using hk
      congr 1
      funext p
      by_cases hpk : p.1 = k
      · simp [hpk, hk']
      · simp [hpk]

/-- Core characterisation: `get_users_to_disconnect` keeps exactly the
bindings whose username the oracle disallows. -/
lemma gutd_eq_filter (users : List (String × Session)) (allowed : String → Bool) :
    get_users_to_disconnect users allowed =
      users.filter (fun p => !allowed p.1) := by
  rw [get_users_to_disconnect, del_fold_eq_filter]
  apply List.filter_congr
  intro p hp
  have : (users.map Prod.fst).contains p.1 = true := by
    simp only [List.contains_iff_exists_mem_beq]
    exact ⟨p.1, List.mem_map_of_mem Prod.fst hp, by simp⟩
  rw [this, Bool.true_and]

/-- With pairwise-distinct keys, filtering for one present key returns
exactly its binding. -/
lemma filter_eq_singleton_of_nodup (u0 : String) (v0 : Session) :
    ∀ (users : List (String × Session)),
      (users.map Prod.fst).Nodup → (u0, v0) ∈ users →
      users.filter (fun p => decide (p.1 = u0)) = [(u0, v0)] := by
  intro users
  induction users with
  | nil => intro _ h; cases h
  | cons q qs ih =>
    intro hnd hmem
    have hnd' : (qs.map Prod.fst).Nodup := (List.nodup_cons.1 hnd).2
    have hq : q.1 ∉ qs.map Prod.fst := (List.nodup_cons.1 hnd).1
    rcases List.mem_cons.1 hmem with hq0 | hqs
    · subst hq0
      have : qs.filter (fun p => decide (p.1 = u0)) = [] := by
        rw [List.filter_eq_nil_iff]
        intro p hp
        simp only [decide_eq_true_eq]
        intro hp1
        apply hq
        show u0 ∈ qs.map Prod.fst
        rw [← hp1]
        exact List.mem_map_of_mem Prod.fst hp
      simp [this]
    · have hu0 : u0 ∈ qs.map Prod.fst := by
        simpa using List.mem_map_of_mem Prod.fst hqs
      have hne : q.1 ≠ u0 := fun he => hq (he ▸ hu0)
      simp only [List.filter_cons, decide_eq_true_eq]
      rw [if_neg (by simpa using hne)]
      exact ih hnd' hqs

/-- C2: `get_users_to_disconnect` returns exactly the connected
sessions whose username the oracle disallows: it is the connected
mapping minus every allowed username; consequently it is a sublist of
the input, empty when every username is allowed, the whole input when
none is, and exactly the one disallowed binding when the oracle
disallows exactly one username of a duplicate-free mapping. -/
theorem gutd_minus_allowed (users : List (String × Session)) (allowed : String → Bool) :
    get_users_to_disconnect users allowed =
        users.filter (fun p => !allowed p.1) ∧
      (∀ p ∈ get_users_to_disconnect users allowed, p ∈ users) ∧
      ((∀ p ∈ users, allowed p.1 = true) →
        get_users_to_disconnect users allowed = []) ∧
      ((∀ p ∈ users, allowed p.1 = false) →
        get_users_to_disconnect users allowed = users) ∧
      (∀ (u0 : String) (v0 : Session),
        (users.map Prod.fst).Nodup → (u0, v0) ∈ users →
        (∀ p ∈ users, allowed p.1 = false ↔ p.1 = u0) →
        get_users_to_disconnect users allowed = [(u0, v0)]) := by
  have hfil := gutd_eq_filter users allowed
  refine ⟨hfil, ?_, ?_, ?_, ?_⟩
  · intro p hp
    rw [hfil] at hp
    exact List.mem_of_mem_filter hp
  · intro hall
    rw [hfil, List.filter_eq_nil_iff]
    intro p hp
    simp [hall p hp]
  · intro hnone
    rw [hfil]
    apply List.filter_eq_self.2
    intro p hp
    simp [hnone p hp]
  · intro u0 v0 hnd hmem hone
    rw [hfil, ← filter_eq_singleton_of_nodup u0 v0 users hnd hmem]
    apply List.filter_congr
    intro p hp
    have := hone p hp
    rcases ha : allowed p.1 with _ | _ <;> simp_all

/-- Witness for C2 on a concrete five-user mapping with one disallowed
user. -/
theorem gutd_minus_allowed_witness :
    get_users_to_disconnect
        [("Fred", ("Fred", "192.168.10.10:1")), ("Daphne", ("Daphne", "192.168.10.20:2")),
          ("Velma", ("Velma", "192.168.10.30:3")), ("Shaggy", ("Shaggy", "192.168.10.40:4")),
          ("Scooby", ("Scooby", "192.168.10.50:5"))]
        (fun u => !(u = "Velma")) =
      [("Velma", ("Velma", "192.168.10.30:3"))] :=
  (gutd_minus_allowed
      [("Fred", ("Fred", "192.168.10.10:1")), ("Daphne", ("Daphne", "192.168.10.20:2")),
        ("Velma", ("Velma", "192.168.10.30:3")), ("Shaggy", ("Shaggy", "192.168.10.40:4")),
        ("Scooby", ("Scooby", "192.168.10.50:5"))]
      (fun u => !(u = "Velma"))).2.2.2.2
    "Velma" ("Velma", "192.168.10.30:3") (by decide) (by decide) (by decide)

/-! ## Claim C10: key consistency of the session dict -/

lemma pyDictSet_mem (d : List (String × Session)) (k : String) (v : Session) :
    ∀ e ∈ pyDictSet d k v, e ∈ d ∨ e = (k, v) := by
  intro e he
  rw [pyDictSet] at he
  by_cases hany : d.any (fun p => p.1 = k) = true
  · rw [if_pos hany] at he
    obtain ⟨p, hp, hpe⟩ := List.mem_map.1 he
    by_cases hpk : p.1 = k
    · right; rw [← hpe, if_pos (by simpa using hpk)]
    · left; rw [← hpe, if_neg (by simpa using hpk)]; exact hp
  · rw [if_neg hany] at he
    rcases List.mem_append.1 he with h | h
    · exact Or.inl h
    · exact Or.inr (List.mem_singleton.1 h)

/-- Every binding produced by the `users[matchset[0]] = matchset` fold
stores a record whose first field is the key. -/
lemma dict_fold_consistent (ms : List (List Char × List Char)) :
    ∀ (acc : List (String × Session)), (∀ e ∈ acc, e.2.1 = e.1) →
      ∀ e ∈ ms.foldl
          (fun users m =>
            pyDictSet users (String.mk m.1) (String.mk m.1, String.mk m.2)) acc,
        e.2.1 = e.1 := by
  induction ms with
  | nil => intro acc hacc; exact hacc
  | cons m ms ih =>
    intro acc hacc
    rw [List.foldl_cons]
    apply ih
    intro e he
    rcases pyDictSet_mem acc (String.mk m.1) (String.mk m.1, String.mk m.2) e he with
      h | h
    · exact hacc e h
    · rw [h]

/-- C10: every binding of the mapping returned by `getusers` maps a
username to a record whose first component is that username, and
`get_users_to_disconnect` preserves this: each surviving binding is one
of the original bindings, still keyed by its record's username. -/
theorem getusers_key_consistent (data : String) (allowed : String → Bool) :
    (∀ e ∈ getusers data, e.2.1 = e.1) ∧
      (∀ e ∈ get_users_to_disconnect (getusers data) allowed,
        e ∈ getusers data ∧ e.2.1 = e.1) := by
  have hmk : ∀ ms, ∀ e ∈ mkUserDict ms, e.2.1 = e.1 := fun ms =>
    dict_fold_consistent ms [] (fun e he => absurd he (List.not_mem_nil e))
  have hkc : ∀ e ∈ getusers data, e.2.1 = e.1 := by
    rw [getusers]
    split <;> apply hmk
  refine ⟨hkc, fun e he => ?_⟩
  have hmem : e ∈ getusers data := by
    rw [gutd_eq_filter] at he
    exact List.mem_of_mem_filter he
  exact ⟨hmem, hkc e hmem⟩

/-- Witness for C10 on a concrete status dump. -/
theorem getusers_key_consistent_witness :
    ("alice", ("alice", "1.2.3.4:5")).2.1 = ("alice", ("alice", "1.2.3.4:5")).1 ∧
      ("alice", ("alice", "1.2.3.4:5")) ∈
        getusers "TITLE\nCLIENT_LIST,alice,1.2.3.4:5,\nEND" :=
  ⟨(getusers_key_consistent "TITLE\nCLIENT_LIST,alice,1.2.3.4:5,\nEND"
      (fun _ => false)).1 ("alice", ("alice", "1.2.3.4:5")) (by decide),
    by decide⟩

/-! ## Claim C9: termination of the drain loop -/

/-- Unfolding of one drain-loop iteration in terms of the break
condition `drainStops`. -/
lemma drainLoop_succ (stopon : Option String) (incoming : Nat → Option String)
    (fuel k : Nat) :
    drainLoop stopon incoming (fuel+1) k (recvAccum incoming k) =
      if drainStops stopon incoming k then some (recvAccum incoming (k+1))
      else drainLoop stopon incoming fuel (k+1) (recvAccum incoming (k+1)) := rfl

/-- C9: whenever the incoming stream is eventually idle (some poll
returns no data) or, with a configured stop marker, the accumulated
data eventually contains the marker, the drain loop of `_send`
terminates — for every sufficiently large fuel it returns the same
value — and the value returned is the accumulated data. -/
theorem drain_loop_terminates (stopon : Option String)
    (incoming : Nat → Option String)
    (h : (∃ k, incoming k = none) ∨
      (∃ m, stopon = some m ∧ ∃ k, strFind (recvAccum incoming (k+1)) m = true)) :
    ∃ N r, (∀ fuel, N ≤ fuel → drainLoop stopon incoming fuel 0 "" = some r) ∧
      ∃ j, r = recvAccum incoming j := by
  have hbc : ∃ k, drainStops stopon incoming k = true := by
    rcases h with ⟨k, hk⟩ | ⟨m, hm, k, hk⟩
    · exact ⟨k, by simp [drainStops, hk]⟩
    · exact ⟨k, by simp [drainStops, hm, hk]⟩
  set K := Nat.find hbc with hK
  have hKs : drainStops stopon incoming K = true := Nat.find_spec hbc
  have hKmin : ∀ j, j < K → drainStops stopon incoming j = false := by
    intro j hj
    have := Nat.find_min hbc hj
    simpa using this
  have main : ∀ fuel j, j ≤ K → K + 1 - j ≤ fuel →
      drainLoop stopon incoming fuel j (recvAccum incoming j) =
        some (recvAccum incoming (K+1)) := by
    intro fuel
    induction fuel with
    | zero => intro j hj hf; omega
    | succ fuel ih =>
      intro j hj hf
      rw [drainLoop_succ]
      rcases eq_or_lt_of_le hj with hjK | hjK
      · rw [hjK, if_pos hKs]
      · rw [if_neg (by simp [hKmin j hjK])]
        exact ih (j+1) (by omega) (by omega)
  refine ⟨K + 1, recvAccum incoming (K+1), fun fuel hf => ?_, ⟨K+1, rfl⟩⟩
  have h0 : recvAccum incoming 0 = "" := rfl
  rcases Nat.exists_eq_add_of_le hf with ⟨d, hd⟩
  rw [← h0]
  exact main fuel 0 (Nat.zero_le K) (by omega)

/-- Witness for C9: a stream that delivers one chunk and is then idle. -/
theorem drain_loop_terminates_witness :
    ∃ N r,
      (∀ fuel, N ≤ fuel →
        drainLoop none (fun k => if k = 0 then some "pong" else none) fuel 0 "" =
          some r) ∧
      ∃ j, r = recvAccum (fun k => if k = 0 then some "pong" else none) j :=
  drain_loop_terminates none (fun k => if k = 0 then some "pong" else none)
    (Or.inl ⟨1, rfl⟩)

/-! ## Claim C5: the version sniff

Claim C5 reads the sniff as "contains some line beginning with `TITLE`
(at any position in the text)".  The source's sniff
`re.findall('^TITLE', data)` (line 130) is compiled without
`re.MULTILINE`, so it only ever matches at the very start of the text:
a `TITLE` line that is not the first line does not select the
version-2/3 extraction. -/

/-- Counterexample to C5 as stated: this text contains a line beginning
with `TITLE` (not the first line) and a tab-separated `CLIENT_LIST`
record that the version-2/3 matcher would extract, yet `getusers`
returns the empty mapping because the fallback matcher was selected. -/
theorem title_sniff_counterexample :
    containsTitleLine "x\nTITLE y\nCLIENT_LIST\tu\t1.2.3.4:5\t" = true ∧
      pyStartswith "x\nTITLE y\nCLIENT_LIST\tu\t1.2.3.4:5\t" "TITLE" = false ∧
      findAll true clientListRE "x\nTITLE y\nCLIENT_LIST\tu\t1.2.3.4:5\t".toList =
        [("u".toList, "1.2.3.4:5".toList)] ∧
      getusers "x\nTITLE y\nCLIENT_LIST\tu\t1.2.3.4:5\t" = [] := by
  refine ⟨by decide, by decide, by decide, by decide⟩

/-- C5 (amended): `getusers` selects the version-2/3 `CLIENT_LIST`
extraction iff the raw text begins with `TITLE`; for every other text
it selects the version-1 fallback matcher. -/
theorem title_sniff_selects (data : String) :
    (pyStartswith data "TITLE" = true →
      getusers data = mkUserDict (findAll true clientListRE data.toList)) ∧
      (pyStartswith data "TITLE" = false →
        getusers data = mkUserDict (findAll false v1RE data.toList)) := by
  constructor <;> intro h <;> simp [getusers, h]

/-- Witness for C5 (amended) on both branches. -/
theorem title_sniff_selects_witness :
    getusers "TITLE x" = mkUserDict (findAll true clientListRE "TITLE x".toList) ∧
      getusers "x" = mkUserDict (findAll false v1RE "x".toList) :=
  ⟨(title_sniff_selects "TITLE x").1 (by decide),
    (title_sniff_selects "x").2 (by decide)⟩

/-! ## Soundness of the matcher

Every successful `matchk` run consumes a word of the pattern's
language; this is the backbone of the parser claims. -/

lemma tryPlus_sound {α} (k : List Char → Option α) (cs : List Char) :
    ∀ (n : Nat) (res : α), tryPlus k cs n = some res →
      ∃ d, 1 ≤ d ∧ d ≤ n ∧ k (cs.drop d) = some res := by
  intro n
  induction n with
  | zero => intro res h; exact absurd h (by simp [tryPlus])
  | succ n ih =>
    intro res h
    rw [tryPlus] at h
    cases hk : k (cs.drop (n+1)) with
    | some r =>
      rw [hk] at h
      injection h with h
      exact ⟨n+1, by omega, le_refl _, by rw [hk, h]⟩
    | none =>
      rw [hk] at h
      obtain ⟨d, h1, h2, h3⟩ := ih res h
      exact ⟨d, h1, by omega, h3⟩

lemma take_of_le_takeWhile (p : Char → Bool) :
    ∀ (cs : List Char) (d : Nat), d ≤ (cs.takeWhile p).length →
      ∀ c ∈ cs.take d, p c = true := by
  intro cs
  induction cs with
  | nil => intro d _ c hc; simp at hc
  | cons x xs ih =>
    intro d hd c hc
    cases d with
    | zero => simp at hc
    | succ e =>
      by_cases hx : p x = true
      · rw [List.takeWhile_cons, if_pos hx] at hd
        rcases List.mem_cons.1 (by simpa using hc) with hcx | hcs
        · exact hcx ▸ hx
        · exact ih e (by simpa using hd) c hcs
      · rw [List.takeWhile_cons, if_neg hx] at hd
        simp at hd

lemma matchk_sound {α} :
    ∀ (r : RE) (cs : List Char) (caps : Caps)
      (k : List Char → Caps → Option α) (res : α),
      matchk r cs caps k = some res →
      ∃ w cs' caps', cs = w ++ cs' ∧ Lang r w ∧ k cs' caps' = some res := by
  intro r
  induction r with
  | lit s =>
    intro cs caps k res h
    simp only [matchk] at h
    by_cases hp : s.toList.isPrefixOf cs = true
    · rw [if_pos hp] at h
      obtain ⟨t, ht⟩ := (isPre_iff _ _).1 hp
      refine ⟨s.toList, cs.drop s.toList.length, caps, ?_, rfl, h⟩
      rw [← ht, List.drop_left]
    · rw [if_neg hp] at h
      cases h
  | cls p =>
    intro cs caps k res h
    cases cs with
    | nil => exact Option.noConfusion (by simpa only [matchk] using h)
    | cons c cs' =>
      simp only [matchk] at h
      by_cases hc : p c = true
      · rw [if_pos hc] at h
        exact ⟨[c], cs', caps, rfl, ⟨c, rfl, hc⟩, h⟩
      · rw [if_neg hc] at h
        cases h
  | plus p =>
    intro cs caps k res h
    simp only [matchk] at h
    obtain ⟨d, h1, h2, h3⟩ := tryPlus_sound _ cs _ res h
    refine ⟨cs.take d, cs.drop d, caps, (List.take_append_drop d cs).symm, ?_, h3⟩
    constructor
    · have hdlen : d ≤ cs.length :=
        le_trans h2 (by simpa using List.Sublist.length_le (List.takeWhile_sublist p))
      intro hnil
      have := congrArg List.length hnil
      rw [List.length_take] at this
      simp only [List.length_nil] at this
      omega
    · exact take_of_le_takeWhile p cs d h2
  | cat r1 r2 ih1 ih2 =>
    intro cs caps k res h
    simp only [matchk] at h
    obtain ⟨w1, cs1, caps1, hcs, hl1, hk1⟩ := ih1 cs caps _ res h
    obtain ⟨w2, cs2, caps2, hcs1, hl2, hk2⟩ := ih2 cs1 caps1 k res hk1
    exact ⟨w1 ++ w2, cs2, caps2, by rw [hcs, hcs1, List.append_assoc],
      ⟨w1, w2, rfl, hl1, hl2⟩, hk2⟩
  | grp i r ih =>
    intro cs caps k res h
    simp only [matchk] at h
    obtain ⟨w, cs', caps', hcs, hl, hk⟩ := ih cs caps _ res h
    exact ⟨w, cs', (i, cs.take (cs.length - cs'.length)) :: caps', hcs, hl, hk⟩

lemma matchTwo_sound (r : RE) (cs g1 g2 rem : List Char)
    (h : matchTwo r cs = some (g1, g2, rem)) :
    ∃ w, cs = w ++ rem ∧ Lang r w := by
  rw [matchTwo] at h
  obtain ⟨w, cs', caps', hcs, hlang, hk⟩ := matchk_sound r cs [] _ _ h
  cases h1 : caps'.lookup 1 with
  | none => rw [h1] at hk; cases hk
  | some a =>
    cases h2 : caps'.lookup 2 with
    | none => rw [h1, h2] at hk; cases hk
    | some b =>
      rw [h1, h2] at hk
      injection hk with hk
      have hrem : cs' = rem := congrArg (fun x => x.2.2) hk
      exact ⟨w, hrem ▸ hcs, hlang⟩

/-! ## Character classes and the `ip:port` shape -/

lemma digit_facts (c : Char) (h : c.isDigit = true) :
    c ≠ '\n' ∧ c ≠ '.' ∧ c ≠ ':' ∧ sepClass c = false := by
  refine ⟨?_, ?_, ?_, ?_⟩
  · intro hc; subst hc; exact absurd h (by decide)
  · intro hc; subst hc; exact absurd h (by decide)
  · intro hc; subst hc; exact absurd h (by decide)
  · by_cases h1 : c = ','
    · subst h1; exact absurd h (by decide)
    · by_cases h2 : c = '\t'
      · subst h2; exact absurd h (by decide)
      · simp [sepClass, h1, h2]

lemma sep_facts (c : Char) (h : sepClass c = true) :
    c ≠ '\n' ∧ c.isDigit = false ∧ c ≠ '.' ∧ c ≠ ':' := by
  rw [sepClass, Bool.or_eq_true, decide_eq_true_eq, decide_eq_true_eq] at h
  rcases h with h | h <;> subst h <;> refine ⟨by decide, by decide, by decide, by decide⟩

lemma splitOnChar_ne_nil (c : Char) : ∀ cs, splitOnChar c cs ≠ [] := by
  intro cs
  cases cs with
  | nil => simp [splitOnChar]
  | cons d rest =>
    rw [splitOnChar]
    by_cases hd : d = c
    · simp [hd]
    · rw [if_neg hd]
      cases splitOnChar c rest <;> simp

lemma splitOnChar_not_mem (c : Char) : ∀ (a : List Char), c ∉ a →
    splitOnChar c a = [a] := by
  intro a
  induction a with
  | nil => intro _; rfl
  | cons x a' ih =>
    intro hc
    have hx : ¬ x = c := fun h => hc (h ▸ List.mem_cons_self x a')
    have ha' : c ∉ a' := fun h => hc (List.mem_cons_of_mem x h)
    rw [splitOnChar, if_neg hx, ih ha']

lemma splitOnChar_append (c : Char) : ∀ (a b : List Char), c ∉ a →
    splitOnChar c (a ++ c :: b) = a :: splitOnChar c b := by
  intro a
  induction a with
  | nil => intro b _; simp [splitOnChar]
  | cons x a' ih =>
    intro b hc
    have hx : ¬ x = c := fun h => hc (h ▸ List.mem_cons_self x a')
    have ha' : c ∉ a' := fun h => hc (List.mem_cons_of_mem x h)
    rw [List.cons_append, splitOnChar, if_neg hx, ih b ha']

lemma joinSep_splitOnChar (c : Char) : ∀ cs, joinSep c (splitOnChar c cs) = cs := by
  intro cs
  induction cs with
  | nil => rfl
  | cons d rest ih =>
    cases hs : splitOnChar c rest with
    | nil => exact absurd hs (splitOnChar_ne_nil c rest)
    | cons l ls =>
      rw [hs] at ih
      rw [splitOnChar]
      by_cases hd : d = c
      · subst hd
        rw [if_pos rfl, hs, joinSep, ih]
        rfl
      · rw [if_neg hd, hs]
        cases ls with
        | nil =>
          rw [joinSep] at ih
          rw [joinSep, ih]
        | cons l2 ls2 =>
          rw [joinSep] at ih
          rw [joinSep, List.cons_append, ← ih]

lemma splitOnChar_pieces (c : Char) : ∀ cs l, l ∈ splitOnChar c cs → c ∉ l := by
  intro cs
  induction cs with
  | nil =>
    intro l hl
    simp [splitOnChar] at hl
    simp [hl]
  | cons d rest ih =>
    intro l hl
    rw [splitOnChar] at hl
    by_cases hd : d = c
    · rw [if_pos hd] at hl
      rcases List.mem_cons.1 hl with h | h
      · simp [h]
      · exact ih l h
    · rw [if_neg hd] at hl
      cases hs : splitOnChar c rest with
      | nil => exact absurd hs (splitOnChar_ne_nil c rest)
      | cons p ps =>
        rw [hs] at hl
        rcases List.mem_cons.1 hl with h | h
        · subst h
          intro hmem
          rcases List.mem_cons.1 hmem with h | h
          · exact hd h.symm
          · exact ih p (hs ▸ List.mem_cons_self p ps) h
        · exact ih l (hs ▸ List.mem_cons_of_mem p h)

lemma isEmpty_false_of_ne_nil (d : List Char) (h : d ≠ []) : d.isEmpty = false := by
  cases d with
  | nil => exact absurd rfl h
  | cons a b => rfl

lemma isIpPortB_eq_of_split (cs addr port : List Char)
    (h : splitOnChar ':' cs = [addr, port]) :
    isIpPortB cs =
      ((splitOnChar '.' addr).length = 4 &&
        (splitOnChar '.' addr).all (fun d => !d.isEmpty && d.all Char.isDigit) &&
        (!port.isEmpty && port.all Char.isDigit)) := by
  rw [isIpPortB, h]

lemma isIpPortB_of_IpShape (w : List Char) (h : IpShape w) : isIpPortB w = true := by
  obtain ⟨d1, d2, d3, d4, d5, rfl, ⟨h1n, h1d⟩, ⟨h2n, h2d⟩, ⟨h3n, h3d⟩,
    ⟨h4n, h4d⟩, ⟨h5n, h5d⟩⟩ := h
  have hnc : ∀ (d : List Char), (∀ c ∈ d, c.isDigit = true) →
      '.' ∉ d ∧ ':' ∉ d := by
    intro d hd
    constructor <;> intro hm
    · exact (digit_facts '.' (hd '.' hm)).2.1 rfl
    · exact (digit_facts ':' (hd ':' hm)).2.2.1 rfl
  have h1 := hnc d1 h1d
  have h2 := hnc d2 h2d
  have h3 := hnc d3 h3d
  have h4 := hnc d4 h4d
  have h5 := hnc d5 h5d
  have haddr : ':' ∉ d1 ++ '.' :: (d2 ++ '.' :: (d3 ++ '.' :: d4)) := by
    intro hm
    simp only [List.mem_append, List.mem_cons] at hm
    rcases hm with h | h
    · exact h1.2 h
    rcases h with h | h
    · exact absurd h.symm (by decide)
    rcases h with h | h
    · exact h2.2 h
    rcases h with h | h
    · exact absurd h.symm (by decide)
    rcases h with h | h
    · exact h3.2 h
    rcases h with h | h
    · exact absurd h.symm (by decide)
    · exact h4.2 h
  have hw : d1 ++ '.' :: (d2 ++ '.' :: (d3 ++ '.' :: (d4 ++ ':' :: d5))) =
      (d1 ++ '.' :: (d2 ++ '.' :: (d3 ++ '.' :: d4))) ++ ':' :: d5 := by
    simp [List.append_assoc]
  have hsplitColon :
      splitOnChar ':' (d1 ++ '.' :: (d2 ++ '.' :: (d3 ++ '.' :: (d4 ++ ':' :: d5)))) =
        [d1 ++ '.' :: (d2 ++ '.' :: (d3 ++ '.' :: d4)), d5] := by
    rw [hw, splitOnChar_append ':' _ d5 haddr, splitOnChar_not_mem ':' d5 h5.2]
  have hsplitDots : splitOnChar '.' (d1 ++ '.' :: (d2 ++ '.' :: (d3 ++ '.' :: d4))) =
      [d1, d2, d3, d4] := by
    rw [splitOnChar_append '.' _ _ h1.1, splitOnChar_append '.' _ _ h2.1,
      splitOnChar_append '.' _ _ h3.1, splitOnChar_not_mem '.' d4 h4.1]
  have hall : ∀ (d : List Char), d ≠ [] → (∀ c ∈ d, c.isDigit = true) →
      (!d.isEmpty && d.all Char.isDigit) = true := by
    intro d hn hd
    rw [isEmpty_false_of_ne_nil d hn]
    simp only [Bool.not_false, Bool.true_and, List.all_eq_true]
    exact hd
  rw [isIpPortB_eq_of_split _ _ _ hsplitColon, hsplitDots]
  simp [hall d1 h1n h1d, hall d2 h2n h2d, hall d3 h3n h3d, hall d4 h4n h4d,
    hall d5 h5n h5d]

lemma IpShape_chars (w : List Char) (h : IpShape w) :
    ∀ c ∈ w, (c.isDigit || c = '.' || c = ':') = true := by
  obtain ⟨d1, d2, d3, d4, d5, rfl, h1, h2, h3, h4, h5⟩ := h
  intro c hc
  simp only [List.mem_append, List.mem_cons] at hc
  simp only [Bool.or_eq_true, decide_eq_true_eq]
  rcases hc with h | h
  · exact Or.inl (Or.inl (h1.2 c h))
  rcases h with h | h
  · exact Or.inl (Or.inr h)
  rcases h with h | h
  · exact Or.inl (Or.inl (h2.2 c h))
  rcases h with h | h
  · exact Or.inl (Or.inr h)
  rcases h with h | h
  · exact Or.inl (Or.inl (h3.2 c h))
  rcases h with h | h
  · exact Or.inl (Or.inr h)
  rcases h with h | h
  · exact Or.inl (Or.inl (h4.2 c h))
  rcases h with h | h
  · exact Or.inr h
  · exact Or.inl (Or.inl (h5.2 c h))

lemma IpShape_no_nl (w : List Char) (h : IpShape w) : ∀ c ∈ w, c ≠ '\n' := by
  intro c hc
  have := IpShape_chars w h c hc
  simp only [Bool.or_eq_true, decide_eq_true_eq] at this
  rcases this with (h | h) | h
  · exact (digit_facts c h).1
  · subst h; decide
  · subst h; decide

lemma IpShape_ne_nil (w : List Char) (h : IpShape w) : w ≠ [] := by
  obtain ⟨d1, d2, d3, d4, d5, rfl, h1, _⟩ := h
  cases hd : d1 with
  | nil => exact absurd hd h1.1
  | cons a b => subst hd; simp

lemma IpShape_of_Lang_ipv4 (w : List Char) (h : Lang ipv4portRE w) : IpShape w := by
  rw [ipv4portRE] at h
  simp only [Lang] at h
  obtain ⟨p1, q1, rfl, hp1, q2, q3, rfl, hdot1, p2, q4, rfl, hp2, q5, q6, rfl, hdot2,
    p3, q7, rfl, hp3, q8, q9, rfl, hdot3, p4, q10, rfl, hp4, q11, p5, rfl, hcol, hp5⟩ := h
  have hd1 : q2 = ['.'] := hdot1
  have hd2 : q5 = ['.'] := hdot2
  have hd3 : q8 = ['.'] := hdot3
  have hcl : q11 = [':'] := hcol
  subst hd1 hd2 hd3 hcl
  refine ⟨p1, p2, p3, p4, p5, by simp, ?_, ?_, ?_, ?_, ?_⟩ <;>
    first
    | exact ⟨hp1.1, fun c hc => hp1.2 c hc⟩
    | exact ⟨hp2.1, fun c hc => hp2.2 c hc⟩
    | exact ⟨hp3.1, fun c hc => hp3.2 c hc⟩
    | exact ⟨hp4.1, fun c hc => hp4.2 c hc⟩
    | exact ⟨hp5.1, fun c hc => hp5.2 c hc⟩

lemma Lang_client_parts (w : List Char) (h : Lang clientListRE w) :
    (∀ c ∈ w, c ≠ '\n') ∧ ∃ a g b, w = a ++ (g ++ b) ∧ IpShape g := by
  rw [clientListRE] at h
  simp only [Lang] at h
  obtain ⟨wlit, q1, rfl, hlit, ws0, q2, rfl, hs0, wg1, q3, rfl, hg1, ws1, q4, rfl,
    hs1, wg2, q5, rfl, hg2, hs2⟩ := h
  obtain ⟨s0, rfl, hs0c⟩ := hs0
  obtain ⟨s1, rfl, hs1c⟩ := hs1
  obtain ⟨s2, rfl, hs2c⟩ := hs2
  have hip : IpShape wg2 := IpShape_of_Lang_ipv4 wg2 hg2
  have hlitnl : ∀ x ∈ "CLIENT_LIST".toList, x ≠ '\n' := by decide
  constructor
  · intro c hc
    subst hlit
    simp only [List.mem_append, List.mem_cons, List.not_mem_nil, or_false] at hc
    rcases hc with h | rfl | h | rfl | h | rfl
    · exact hlitnl c h
    · exact (sep_facts _ hs0c).1
    · have := hg1.2 c h
      rw [dotClass] at this
      exact of_decide_eq_true this
    · exact (sep_facts _ hs1c).1
    · exact IpShape_no_nl wg2 hip c h
    · exact (sep_facts _ hs2c).1
  · exact ⟨wlit ++ (s0 :: (wg1 ++ [s1])), wg2, [s2], by simp, hip⟩

lemma Lang_v1_parts (w : List Char) (h : Lang v1RE w) :
    (∀ c ∈ w, c ≠ '\n') ∧ ∃ a g b, w = a ++ (g ++ b) ∧ IpShape g := by
  rw [v1RE] at h
  simp only [Lang] at h
  obtain ⟨wlit, q1, rfl, hlit, wg1, q2, rfl, hg1, wc2, wg2, rfl, hc2, hg2⟩ := h
  have hip : IpShape wg2 := IpShape_of_Lang_ipv4 wg2 hg2
  have hcomnl : ∀ x ∈ ",".toList, x ≠ '\n' := by decide
  constructor
  · intro c hc
    subst hlit hc2
    simp only [List.mem_append, List.not_mem_nil, or_false] at hc
    rcases hc with h | h | h | h
    · exact hcomnl c h
    · have := hg1.2 c h
      rw [dotClass] at this
      exact of_decide_eq_true this
    · exact hcomnl c h
    · exact IpShape_no_nl wg2 hip c h
  · subst hlit hc2
    exact ⟨",".toList ++ (wg1 ++ ",".toList), wg2, [], by simp, hip⟩

/-! ## Locating a matched word inside one line of the raw text -/

lemma pre_takeWhile (p : Char → Bool) :
    ∀ (w cs : List Char), (∃ t, w ++ t = cs) → (∀ c ∈ w, p c = true) →
      ∃ t', w ++ t' = cs.takeWhile p := by
  intro w
  induction w with
  | nil => intro cs _ _; exact ⟨cs.takeWhile p, rfl⟩
  | cons c w' ih =>
    intro cs ⟨t, ht⟩ hp
    cases cs with
    | nil => cases ht
    | cons d cs' =>
      injection ht with h1 h2
      subst h1
      have hpc : p c = true := hp c (List.mem_cons_self c w')
      rw [List.takeWhile_cons, if_pos hpc]
      obtain ⟨t', ht'⟩ := ih cs' ⟨t, h2⟩ (fun x hx => hp x (List.mem_cons_of_mem c hx))
      exact ⟨t', by rw [List.cons_append, ht']⟩

lemma splitOnChar_head_takeWhile (c : Char) :
    ∀ cs, ∃ ls, splitOnChar c cs = cs.takeWhile (fun d => decide (d ≠ c)) :: ls := by
  intro cs
  induction cs with
  | nil => exact ⟨[], rfl⟩
  | cons d rest ih =>
    by_cases hd : d = c
    · subst hd
      refine ⟨splitOnChar d rest, ?_⟩
      rw [splitOnChar, if_pos rfl, List.takeWhile_cons]
      simp
    · obtain ⟨ls, hls⟩ := ih
      refine ⟨ls, ?_⟩
      rw [splitOnChar, if_neg hd, hls, List.takeWhile_cons, if_pos (by simpa using hd)]

lemma splitOnChar_cons_of_mem (x : Char) (c : Char) (cs2 : List Char) (hx : ¬ x = c) :
    ∃ l0 ls, splitOnChar c cs2 = l0 :: ls ∧
      splitOnChar c (x :: cs2) = (x :: l0) :: ls := by
  cases hs : splitOnChar c cs2 with
  | nil => exact absurd hs (splitOnChar_ne_nil c cs2)
  | cons l0 ls =>
    refine ⟨l0, ls, rfl, ?_⟩
    rw [splitOnChar, if_neg hx, hs]

/-- A non-empty newline-free stretch of the raw text lies inside one of
its lines. -/
lemma stretch_in_line :
    ∀ (cs w : List Char), w ≠ [] → (∀ c ∈ w, c ≠ '\n') →
      (∃ s t, s ++ (w ++ t) = cs) →
      ∃ l ∈ splitOnChar '\n' cs, ∃ s' t', s' ++ (w ++ t') = l := by
  intro cs
  induction cs with
  | nil =>
    intro w hw _ ⟨s, t, hst⟩
    exfalso
    apply hw
    cases hs : s with
    | cons a b => rw [hs] at hst; cases hst
    | nil =>
      rw [hs] at hst
      simp only [List.nil_append] at hst
      cases hw2 : w with
      | nil => rfl
      | cons a b => rw [hw2] at hst; cases hst
  | cons x cs2 ih =>
    intro w hw hnl ⟨s, t, hst⟩
    cases hs : s with
    | nil =>
      subst hs
      simp only [List.nil_append] at hst
      cases hw2 : w with
      | nil => exact absurd hw2 hw
      | cons c w2 =>
        subst hw2
        rw [List.cons_append] at hst
        injection hst with h1 h2
        subst h1
        have hxnl : c ≠ '\n' := hnl c (List.mem_cons_self c w2)
        obtain ⟨l0, ls, hsp, hcons⟩ := splitOnChar_cons_of_mem c '\n' cs2 hxnl
        obtain ⟨ls', hhead⟩ := splitOnChar_head_takeWhile '\n' cs2
        rw [hsp] at hhead
        injection hhead with hl0 hls
        obtain ⟨t', ht'⟩ := pre_takeWhile (fun d => decide (d ≠ '\n')) w2 cs2
          ⟨t, h2⟩
          (fun d hd => by
            simpa using hnl d (List.mem_cons_of_mem c hd))
        refine ⟨c :: l0, ?_, [], t', ?_⟩
        · rw [hcons]; exact List.mem_cons_self _ _
        · rw [List.nil_append, List.cons_append, hl0, ← ht']
    | cons y s2 =>
      subst hs
      rw [List.cons_append] at hst
      injection hst with h1 h2
      subst h1
      obtain ⟨l, hl, s', t', hdec⟩ := ih w hw hnl ⟨s2, t, h2⟩
      by_cases hx : y = '\n'
      · subst hx
        refine ⟨l, ?_, s', t', hdec⟩
        rw [splitOnChar, if_pos rfl]
        exact List.mem_cons_of_mem _ hl
      · obtain ⟨l0, ls, hsp, hcons⟩ := splitOnChar_cons_of_mem y '\n' cs2 hx
        rw [hsp] at hl
        rcases List.mem_cons.1 hl with rfl | hmem
        · refine ⟨y :: l, ?_, y :: s', t', ?_⟩
          · rw [hcons]; exact List.mem_cons_self _ _
          · rw [List.cons_append, hdec]
        · refine ⟨l, ?_, s', t', hdec⟩
          rw [hcons]
          exact List.mem_cons_of_mem _ hmem

/-- Any substring with the `ip:port` shape makes `containsIpPortB`
true on its line. -/
lemma containsIpPortB_of_stretch (l g : List Char) (hg : isIpPortB g = true)
    (hdec : ∃ s' t', s' ++ (g ++ t') = l) : containsIpPortB l = true := by
  obtain ⟨s', t', rfl⟩ := hdec
  rw [containsIpPortB, List.any_eq_true]
  refine ⟨g ++ t', ?_, ?_⟩
  · rw [List.mem_tails]
    exact ⟨s', rfl⟩
  · rw [List.any_eq_true]
    refine ⟨g.length, ?_, ?_⟩
    · rw [List.mem_range]
      simp only [List.length_append]
      omega
    · rw [List.take_left]
      exact hg

/-! ## Soundness of the scanner: every emitted tuple comes from a
successful match at some position of the input -/

lemma findAllFuel_mem_match (anch : Bool) (r : RE) :
    ∀ (fuel : Nat) (cs : List Char) (b : Bool) (e : List Char × List Char),
      e ∈ findAllFuel anch r fuel cs b →
      ∃ cs0 rem, (∃ pre, pre ++ cs0 = cs) ∧
        matchTwo r cs0 = some (e.1, e.2, rem) := by
  intro fuel
  induction fuel with
  | zero => intro cs b e he; rw [findAllFuel] at he; cases he
  | succ fuel ih =>
    intro cs b e he
    cases cs with
    | nil => rw [findAllFuel] at he; cases he
    | cons c rest =>
      rw [findAllFuel] at he
      have hstep : e ∈ findAllFuel anch r fuel rest (decide (c = '\n')) →
          ∃ cs0 rem, (∃ pre, pre ++ cs0 = c :: rest) ∧
            matchTwo r cs0 = some (e.1, e.2, rem) := by
        intro hmem
        obtain ⟨cs0, rem, ⟨pre, hpre⟩, hm⟩ := ih rest _ e hmem
        exact ⟨cs0, rem, ⟨c :: pre, by rw [List.cons_append, hpre]⟩, hm⟩
      by_cases hb : (anch && !b) = true
      · rw [if_pos hb] at he
        exact hstep he
      · rw [if_neg hb] at he
        cases hmt : matchTwo r (c :: rest) with
        | none => rw [hmt] at he; exact hstep he
        | some g =>
          obtain ⟨g1, g2, cs'⟩ := g
          rw [hmt] at he
          have he' : e ∈ (if cs'.length < rest.length + 1 then
              (g1, g2) :: findAllFuel anch r fuel cs'
                (lastIsNL (List.take (rest.length + 1 - cs'.length) (c :: rest)))
            else findAllFuel anch r fuel rest (decide (c = '\n'))) := he
          clear he
          by_cases hlt : cs'.length < rest.length + 1
          · rw [if_pos hlt] at he'
            rcases List.mem_cons.1 he' with rfl | he2
            · exact ⟨c :: rest, cs', ⟨[], rfl⟩, hmt⟩
            · obtain ⟨cs0, rem, ⟨pre, hpre⟩, hm⟩ := ih cs' _ e he2
              obtain ⟨w, hw, _⟩ := matchTwo_sound r (c :: rest) g1 g2 cs' hmt
              exact ⟨cs0, rem, ⟨w ++ pre, by rw [List.append_assoc, hpre, ← hw]⟩, hm⟩
          · rw [if_neg hlt] at he'
            exact hstep he'

lemma mkUserDict_mem (ms : List (List Char × List Char)) :
    ∀ e ∈ mkUserDict ms,
      ∃ m ∈ ms, e = (String.mk m.1, (String.mk m.1, String.mk m.2)) := by
  have haux : ∀ (ms' : List (List Char × List Char))
      (acc : List (String × Session)) (e : String × Session),
      e ∈ ms'.foldl
        (fun users m =>
          pyDictSet users (String.mk m.1) (String.mk m.1, String.mk m.2)) acc →
      e ∈ acc ∨ ∃ m ∈ ms', e = (String.mk m.1, (String.mk m.1, String.mk m.2)) := by
    intro ms'
    induction ms' with
    | nil => intro acc e he; exact Or.inl he
    | cons m ms2 ih =>
      intro acc e he
      rw [List.foldl_cons] at he
      rcases ih _ e he with hacc | ⟨m', hm', he'⟩
      · rcases pyDictSet_mem acc (String.mk m.1) (String.mk m.1, String.mk m.2) e hacc
          with h | h
        · exact Or.inl h
        · exact Or.inr ⟨m, List.mem_cons_self m ms2, h⟩
      · exact Or.inr ⟨m', List.mem_cons_of_mem m hm', he'⟩
  intro e he
  rcases haux ms [] e he with h | h
  · cases h
  · exact h

/-! ## Capture soundness: each captured group is a stretch of the
matched word, in the language of its group's sub-pattern -/

lemma lookup_mem {v : List Char} (j : Nat) :
    ∀ (l : Caps), l.lookup j = some v → (j, v) ∈ l := by
  intro l
  induction l with
  | nil => intro h; cases h
  | cons p t ih =>
    intro h
    rw [List.lookup] at h
    cases hj : j == p.1 with
    | true =>
      rw [hj] at h
      injection h with h
      have hj' : j = p.1 := by simpa using hj
      have hmem : (j, v) = p := by rw [hj', ← h]
      rw [hmem]
      exact List.mem_cons_self p t
    | false =>
      rw [hj] at h
      exact List.mem_cons_of_mem p (ih h)

lemma GrpIn_hasGrp {r : RE} {i : Nat} {r' : RE} (h : GrpIn r i r') :
    hasGrp r = true := by
  induction h with
  | self i r => rfl
  | inner j r i r' h ih => rfl
  | catL a b i r' h ih => simp [hasGrp, ih]
  | catR a b i r' h ih => simp [hasGrp, ih]

lemma matchk_sound_caps {α} :
    ∀ (r : RE) (cs : List Char) (caps : Caps)
      (k : List Char → Caps → Option α) (res : α),
      matchk r cs caps k = some res →
      ∃ w cs' caps2, cs = w ++ cs' ∧ Lang r w ∧
        k cs' (caps2 ++ caps) = some res ∧
        ∀ p ∈ caps2, ∃ r', GrpIn r p.1 r' ∧ Lang r' p.2 ∧
          ∃ a b, w = a ++ (p.2 ++ b) := by
  intro r
  induction r with
  | lit s =>
    intro cs caps k res h
    simp only [matchk] at h
    by_cases hp : s.toList.isPrefixOf cs = true
    · rw [if_pos hp] at h
      obtain ⟨t, ht⟩ := (isPre_iff _ _).1 hp
      refine ⟨s.toList, cs.drop s.toList.length, [], ?_, rfl, h, ?_⟩
      · rw [← ht, List.drop_left]
      · intro p hp2; cases hp2
    · rw [if_neg hp] at h
      cases h
  | cls p =>
    intro cs caps k res h
    cases cs with
    | nil => exact Option.noConfusion (by simpa only [matchk] using h)
    | cons c cs' =>
      simp only [matchk] at h
      by_cases hc : p c = true
      · rw [if_pos hc] at h
        exact ⟨[c], cs', [], rfl, ⟨c, rfl, hc⟩, h, fun q hq => by cases hq⟩
      · rw [if_neg hc] at h
        cases h
  | plus p =>
    intro cs caps k res h
    simp only [matchk] at h
    obtain ⟨d, h1, h2, h3⟩ := tryPlus_sound _ cs _ res h
    refine ⟨cs.take d, cs.drop d, [], (List.take_append_drop d cs).symm, ?_, h3,
      fun q hq => by cases hq⟩
    constructor
    · have hdlen : d ≤ cs.length :=
        le_trans h2 (by simpa using List.Sublist.length_le (List.takeWhile_sublist p))
      intro hnil
      have := congrArg List.length hnil
      rw [List.length_take] at this
      simp only [List.length_nil] at this
      omega
    · exact take_of_le_takeWhile p cs d h2
  | cat r1 r2 ih1 ih2 =>
    intro cs caps k res h
    simp only [matchk] at h
    obtain ⟨w1, cs1, caps2a, hcs, hl1, hk1, hprops1⟩ := ih1 cs caps _ res h
    obtain ⟨w2, cs2, caps2b, hcs1, hl2, hk2, hprops2⟩ :=
      ih2 cs1 (caps2a ++ caps) k res hk1
    refine ⟨w1 ++ w2, cs2, caps2b ++ caps2a,
      by rw [hcs, hcs1, List.append_assoc],
      ⟨w1, w2, rfl, hl1, hl2⟩, by rwa [List.append_assoc], ?_⟩
    intro q hq
    rcases List.mem_append.1 hq with hb | ha
    · obtain ⟨r', hg, hlq, a, b, hw⟩ := hprops2 q hb
      exact ⟨r', .catR _ _ _ _ hg, hlq, w1 ++ a, b,
        by rw [hw]; simp [List.append_assoc]⟩
    · obtain ⟨r', hg, hlq, a, b, hw⟩ := hprops1 q ha
      exact ⟨r', .catL _ _ _ _ hg, hlq, a, b ++ w2,
        by rw [hw]; simp [List.append_assoc]⟩
  | grp i r ih =>
    intro cs caps k res h
    simp only [matchk] at h
    obtain ⟨w, cs', caps2, hcs, hl, hk, hprops⟩ := ih cs caps _ res h
    have htake : cs.take (cs.length - cs'.length) = w := by
      rw [hcs, List.length_append, Nat.add_sub_cancel, List.take_left]
    refine ⟨w, cs', (i, w) :: caps2, hcs, hl, ?_, ?_⟩
    · rw [List.cons_append, ← htake]
      exact hk
    · intro q hq
      rcases List.mem_cons.1 hq with rfl | hq2
      · exact ⟨r, .self i r, hl, [], [], by simp⟩
      · obtain ⟨r', hg, hlq, a, b, hw⟩ := hprops q hq2
        exact ⟨r', .inner i r _ r' hg, hlq, a, b, hw⟩

lemma matchTwo_sound_caps (r : RE) (cs g1 g2 rem : List Char)
    (h : matchTwo r cs = some (g1, g2, rem)) :
    ∃ w, cs = w ++ rem ∧ Lang r w ∧
      (∃ a b, w = a ++ (g1 ++ b)) ∧
      (∃ r2, GrpIn r 2 r2 ∧ Lang r2 g2) ∧
      (∃ a b, w = a ++ (g2 ++ b)) := by
  rw [matchTwo] at h
  obtain ⟨w, cs', caps2, hcs, hlang, hk, hprops⟩ :=
    matchk_sound_caps r cs [] _ _ h
  rw [List.append_nil] at hk
  cases h1 : caps2.lookup 1 with
  | none => rw [h1] at hk; cases hk
  | some a =>
    cases h2 : caps2.lookup 2 with
    | none => rw [h1, h2] at hk; cases hk
    | some b =>
      rw [h1, h2] at hk
      injection hk with hk
      have ha : a = g1 := congrArg (fun x => x.1) hk
      have hb : b = g2 := congrArg (fun x => x.2.1) hk
      have hrem : cs' = rem := congrArg (fun x => x.2.2) hk
      subst ha hb hrem
      obtain ⟨r1', hg1, hl1, a1, b1, hw1⟩ := hprops (1, a) (lookup_mem 1 caps2 h1)
      obtain ⟨r2', hg2, hl2, a2, b2, hw2⟩ := hprops (2, b) (lookup_mem 2 caps2 h2)
      exact ⟨w, hcs, hlang, ⟨a1, b1, hw1⟩, ⟨r2', hg2, hl2⟩, ⟨a2, b2, hw2⟩⟩

/-- In the version-2/3 pattern, group 2 is the `ip:port` sub-pattern. -/
lemma GrpIn_client_two (r' : RE) (h : GrpIn clientListRE 2 r') :
    r' = ipv4portRE := by
  rw [clientListRE] at h
  cases h with
  | catL _ _ _ _ h1 => cases h1
  | catR _ _ _ _ h1 =>
    cases h1 with
    | catL _ _ _ _ h2 => cases h2
    | catR _ _ _ _ h2 =>
      cases h2 with
      | catL _ _ _ _ h3 =>
        cases h3 with
        | inner _ _ _ _ h4 => cases h4
      | catR _ _ _ _ h3 =>
        cases h3 with
        | catL _ _ _ _ h4 => cases h4
        | catR _ _ _ _ h4 =>
          cases h4 with
          | catL _ _ _ _ h5 =>
            cases h5 with
            | self _ _ => rfl
            | inner _ _ _ _ h6 => exact Bool.noConfusion (GrpIn_hasGrp h6)
          | catR _ _ _ _ h5 => cases h5

/-- In the version-1 fallback pattern, group 2 is the `ip:port`
sub-pattern. -/
lemma GrpIn_v1_two (r' : RE) (h : GrpIn v1RE 2 r') : r' = ipv4portRE := by
  rw [v1RE] at h
  cases h with
  | catL _ _ _ _ h1 => cases h1
  | catR _ _ _ _ h1 =>
    cases h1 with
    | catL _ _ _ _ h2 =>
      cases h2 with
      | inner _ _ _ _ h3 => cases h3
    | catR _ _ _ _ h2 =>
      cases h2 with
      | catL _ _ _ _ h3 => cases h3
      | catR _ _ _ _ h3 =>
        cases h3 with
        | self _ _ => rfl
        | inner _ _ _ _ h4 => exact Bool.noConfusion (GrpIn_hasGrp h4)

/-! ## Claim C8: malformed input parses to nothing -/

/-- C8: `getusers` is a total function of the raw text (the embedding
returns a value for every input, mirroring that the Python never
raises); every entry of its result is tied to a single line of the
text — the entry's endpoint component is itself a well-formed
`ip:port`, and both the entry's username component and its endpoint
component occur as substrings of that one line, which therefore
contains a well-formed endpoint, so a line without one contributes no
entry; and a text none of whose lines contains such an endpoint —
empty, garbled, or an explicit daemon error reply — yields the empty
mapping. -/
theorem getusers_garbled_empty (data : String) :
    (∀ e ∈ getusers data,
      isIpPortB e.2.2.toList = true ∧
      ∃ l ∈ splitOnChar '\n' data.toList,
        (∃ s t, s ++ (e.2.1.toList ++ t) = l) ∧
        (∃ s t, s ++ (e.2.2.toList ++ t) = l) ∧
        containsIpPortB l = true) ∧
      ((∀ l ∈ splitOnChar '\n' data.toList, containsIpPortB l = false) →
        getusers data = []) := by
  have hmain : ∀ e ∈ getusers data,
      isIpPortB e.2.2.toList = true ∧
      ∃ l ∈ splitOnChar '\n' data.toList,
        (∃ s t, s ++ (e.2.1.toList ++ t) = l) ∧
        (∃ s t, s ++ (e.2.2.toList ++ t) = l) ∧
        containsIpPortB l = true := by
    intro e he
    rw [getusers] at he
    have hcore : ∀ (anch : Bool) (r : RE),
        (∀ w, Lang r w → ∀ c ∈ w, c ≠ '\n') →
        (∀ r2, GrpIn r 2 r2 → r2 = ipv4portRE) →
        e ∈ mkUserDict (findAll anch r data.toList) →
        isIpPortB e.2.2.toList = true ∧
        ∃ l ∈ splitOnChar '\n' data.toList,
          (∃ s t, s ++ (e.2.1.toList ++ t) = l) ∧
          (∃ s t, s ++ (e.2.2.toList ++ t) = l) ∧
          containsIpPortB l = true := by
      intro anch r hlnl hg2 hmem
      obtain ⟨m, hm, rfl⟩ := mkUserDict_mem _ e hmem
      show isIpPortB m.2 = true ∧
        ∃ l ∈ splitOnChar '\n' data.toList,
          (∃ s t, s ++ (m.1 ++ t) = l) ∧
          (∃ s t, s ++ (m.2 ++ t) = l) ∧
          containsIpPortB l = true
      obtain ⟨cs0, rem, ⟨pre, hpre⟩, hmt⟩ :=
        findAllFuel_mem_match anch r _ data.toList true m hm
      obtain ⟨w, hw, hlang, ⟨a1, b1, hw1⟩, ⟨r2, hgr2, hl2⟩, ⟨a2, b2, hw2⟩⟩ :=
        matchTwo_sound_caps r cs0 m.1 m.2 rem hmt
      have hip : IpShape m.2 := IpShape_of_Lang_ipv4 m.2 (hg2 r2 hgr2 ▸ hl2)
      have hipb : isIpPortB m.2 = true := isIpPortB_of_IpShape m.2 hip
      have hwne : w ≠ [] := by
        intro h
        rw [h] at hw2
        have hlen := congrArg List.length hw2
        simp only [List.length_nil, List.length_append] at hlen
        have := List.length_pos.2 (IpShape_ne_nil m.2 hip)
        omega
      have hwnl : ∀ c ∈ w, c ≠ '\n' := hlnl w hlang
      have hloc : ∃ s t, s ++ (w ++ t) = data.toList :=
        ⟨pre, rem, by rw [← hpre, hw]⟩
      obtain ⟨l, hl, s', t', hdec⟩ := stretch_in_line data.toList w hwne hwnl hloc
      refine ⟨hipb, l, hl, ?_, ?_, ?_⟩
      · exact ⟨s' ++ a1, b1 ++ t',
          by rw [← hdec, hw1]; simp [List.append_assoc]⟩
      · exact ⟨s' ++ a2, b2 ++ t',
          by rw [← hdec, hw2]; simp [List.append_assoc]⟩
      · exact containsIpPortB_of_stretch l m.2 hipb
          ⟨s' ++ a2, b2 ++ t', by rw [← hdec, hw2]; simp [List.append_assoc]⟩
    by_cases hv : pyStartswith data "TITLE" = true
    · rw [if_pos hv] at he
      exact hcore true clientListRE
        (fun w hw => (Lang_client_parts w hw).1) GrpIn_client_two he
    · rw [if_neg hv] at he
      exact hcore false v1RE
        (fun w hw => (Lang_v1_parts w hw).1) GrpIn_v1_two he
  refine ⟨hmain, fun hnone => ?_⟩
  cases hu : getusers data with
  | nil => rfl
  | cons e es =>
    exfalso
    obtain ⟨-, l, hl, -, -, hip⟩ := hmain e (hu ▸ List.mem_cons_self e es)
    rw [hnone l hl] at hip
    cases hip

/-- Witness for C8 on a daemon error reply with no endpoint in any
line. -/
theorem getusers_garbled_empty_witness :
    getusers "ERROR, unknown command\nEND" = [] :=
  (getusers_garbled_empty "ERROR, unknown command\nEND").2 (by decide)

/-! ## Completeness machinery for the version-2/3 line matcher -/

lemma tryPlus_first {α} (k : List Char → Option α) (cs : List Char) (n : Nat)
    (res : α) (h : k (cs.drop (n+1)) = some res) :
    tryPlus k cs (n+1) = some res := by
  rw [tryPlus, h]

lemma tryPlus_eventually {α} (k : List Char → Option α) (cs : List Char)
    (d : Nat) (res : α) (hd : 1 ≤ d) (hsucc : k (cs.drop d) = some res) :
    ∀ (n : Nat), d ≤ n → (∀ m, d < m → m ≤ n → k (cs.drop m) = none) →
      tryPlus k cs n = some res := by
  intro n
  induction n with
  | zero => intro h _; omega
  | succ n ih =>
    intro hdn hfail
    by_cases hn : d = n + 1
    · subst hn
      exact tryPlus_first k cs n res hsucc
    · rw [tryPlus, hfail (n+1) (by omega) (le_refl _)]
      exact ih (by omega) (fun m h1 h2 => hfail m h1 (by omega))

lemma matchk_cat_eq {α} (a b : RE) (cs : List Char) (caps : Caps)
    (k : List Char → Caps → Option α) :
    matchk (.cat a b) cs caps k =
      matchk a cs caps (fun cs' caps' => matchk b cs' caps' k) := rfl

lemma matchk_grp_eq {α} (i : Nat) (r : RE) (cs : List Char) (caps : Caps)
    (k : List Char → Caps → Option α) :
    matchk (.grp i r) cs caps k =
      matchk r cs caps
        (fun cs' caps' =>
          k cs' ((i, cs.take (cs.length - cs'.length)) :: caps')) := rfl

lemma matchk_lit_step {α} (s : String) (B : List Char) (caps : Caps)
    (k : List Char → Caps → Option α) :
    matchk (.lit s) (s.toList ++ B) caps k = k B caps := by
  simp only [matchk]
  rw [if_pos ((isPre_iff _ _).2 ⟨B, rfl⟩), List.drop_left]

lemma matchk_cls_step {α} (p : Char → Bool) (c : Char) (B : List Char)
    (caps : Caps) (k : List Char → Caps → Option α) (hc : p c = true) :
    matchk (.cls p) (c :: B) caps k = k B caps := by
  simp only [matchk]
  rw [if_pos hc]

lemma matchk_cls_fail {α} (p : Char → Bool) (c : Char) (B : List Char)
    (caps : Caps) (k : List Char → Caps → Option α) (hc : p c = false) :
    matchk (.cls p) (c :: B) caps k = none := by
  simp only [matchk]
  rw [if_neg (by simp [hc])]

lemma matchk_cls_nil {α} (p : Char → Bool) (caps : Caps)
    (k : List Char → Caps → Option α) :
    matchk (.cls p) [] caps k = none := by
  simp only [matchk]

lemma takeWhile_all_append (p : Char → Bool) (A B : List Char)
    (hA : ∀ c ∈ A, p c = true)
    (hB : B = [] ∨ ∃ c t, B = c :: t ∧ p c = false) :
    (A ++ B).takeWhile p = A := by
  rw [List.takeWhile_append]
  have hA' : A.takeWhile p = A := List.takeWhile_eq_self_iff.2 hA
  rw [if_pos (by rw [hA'])]
  rcases hB with rfl | ⟨c, t, rfl, hc⟩
  · simp [hA']
  · rw [List.takeWhile_cons, if_neg (by simp [hc]), List.append_nil]

lemma matchk_plus_step {α} (p : Char → Bool) (d B : List Char) (caps : Caps)
    (k : List Char → Caps → Option α) (res : α)
    (hd : d ≠ []) (hdd : ∀ c ∈ d, p c = true)
    (hB : B = [] ∨ ∃ c t, B = c :: t ∧ p c = false)
    (hk : k B caps = some res) :
    matchk (.plus p) (d ++ B) caps k = some res := by
  simp only [matchk]
  rw [takeWhile_all_append p d B hdd hB]
  cases hd2 : d with
  | nil => exact absurd hd2 hd
  | cons c d' =>
    subst hd2
    rw [show (c :: d').length = d'.length + 1 from by simp]
    apply tryPlus_first
    have hdrop : ((c :: d') ++ B).drop (d'.length + 1) = B := by
      have h := List.drop_left (c :: d') B
      simp only [List.length_cons] at h
      exact h
    rw [hdrop, hk]

lemma matchk_plus_backtrack {α} (p : Char → Bool) (cs : List Char) (caps : Caps)
    (k : List Char → Caps → Option α) (res : α) (d : Nat)
    (hd1 : 1 ≤ d) (hdmax : d ≤ (cs.takeWhile p).length)
    (hsucc : k (cs.drop d) caps = some res)
    (hfail : ∀ m, d < m → m ≤ (cs.takeWhile p).length →
      k (cs.drop m) caps = none) :
    matchk (.plus p) cs caps k = some res := by
  simp only [matchk]
  exact tryPlus_eventually _ cs d res hd1 hsucc _ hdmax hfail

lemma matchk_none_of_no_lang {α} (r : RE) (cs : List Char) (caps : Caps)
    (k : List Char → Caps → Option α)
    (h : ∀ w cs', cs = w ++ cs' → ¬ Lang r w) :
    matchk r cs caps k = none := by
  cases hm : matchk r cs caps k with
  | none => rfl
  | some res =>
    obtain ⟨w, cs', caps', hcs, hlang, _⟩ := matchk_sound r cs caps k res hm
    exact absurd hlang (h w cs' hcs)

/-- Truncating a concatenation at the length of its first part
recovers that part (the word a successful match consumed). -/
lemma take_consumed (w cs' : List Char) :
    (w ++ cs').take ((w ++ cs').length - cs'.length) = w := by
  rw [List.length_append, Nat.add_sub_cancel, List.take_left]

lemma lastIsNL_concat (a : List Char) (x : Char) (hx : x ≠ '\n') :
    lastIsNL (a ++ [x]) = false := by
  rw [lastIsNL, List.getLast?_concat]
  simp [hx]

/-- Reading `noSecondEndpoint` at one separator position. -/
lemma noSecondEndpoint_split :
    ∀ (a t : List Char) (c : Char), noSecondEndpoint (a ++ c :: t) = true →
      sepClass c = true → startsWithEndpointSep t = false := by
  intro a
  induction a with
  | nil =>
    intro t c h hsep
    rw [List.nil_append, noSecondEndpoint, Bool.and_eq_true] at h
    have h1 := h.1
    rw [Bool.not_eq_true'] at h1
    rwa [hsep, Bool.true_and] at h1
  | cons x a2 ih =>
    intro t c h hsep
    rw [List.cons_append, noSecondEndpoint, Bool.and_eq_true] at h
    exact ih t c h.2 hsep

/-- Unpacking `startsWithEndpointSep = false`: no decomposition of the
list starts with a well-formed endpoint followed by a separator. -/
lemma no_endpoint_then_sep (g : List Char)
    (h : startsWithEndpointSep g = false) :
    ∀ w y b, g = w ++ y :: b → IpShape w → sepClass y = false := by
  intro w y b hsplit hip
  by_contra hy
  rw [Bool.not_eq_false] at hy
  have htrue : startsWithEndpointSep g = true := by
    subst hsplit
    rw [startsWithEndpointSep, List.any_eq_true]
    refine ⟨w.length, ?_, ?_⟩
    · rw [List.mem_range]
      simp only [List.length_append, List.length_cons]
      omega
    · show (isIpPortB ((w ++ y :: b).take w.length) &&
        headIsSep ((w ++ y :: b).drop w.length)) = true
      rw [List.take_left, List.drop_left]
      simp [isIpPortB_of_IpShape w hip, headIsSep, hy]
  rw [h] at htrue
  cases htrue

lemma drop_after (u : List Char) (s1 : Char) (X : List Char) (j : Nat) :
    (u ++ s1 :: X).drop (u.length + 1 + j) = X.drop j := by
  have h : u ++ s1 :: X = (u ++ [s1]) ++ X := by simp
  have h2 : u.length + 1 + j = (u ++ [s1]).length + j := by simp
  rw [h, h2, List.drop_append]

lemma IpShape_not_sep (w : List Char) (h : IpShape w) :
    ∀ c ∈ w, sepClass c = false := by
  intro c hc
  have := IpShape_chars w h c hc
  simp only [Bool.or_eq_true, decide_eq_true_eq] at this
  rcases this with (h | rfl) | rfl
  · exact (digit_facts c h).2.2.2
  · decide
  · decide

lemma matchk_cat_lit {α} (s : String) (r2 : RE) (B : List Char) (caps : Caps)
    (k : List Char → Caps → Option α) (res : Option α)
    (hk : matchk r2 B caps k = res) :
    matchk (.cat (.lit s) r2) (s.toList ++ B) caps k = res := by
  rw [matchk_cat_eq, matchk_lit_step]
  exact hk

lemma matchk_cat_lit1 {α} (ch : Char) (s : String) (hs : s.toList = [ch])
    (r2 : RE) (B : List Char) (caps : Caps)
    (k : List Char → Caps → Option α) (res : Option α)
    (hk : matchk r2 B caps k = res) :
    matchk (.cat (.lit s) r2) (ch :: B) caps k = res := by
  have h2 : ch :: B = s.toList ++ B := by rw [hs]; rfl
  rw [h2]
  exact matchk_cat_lit s r2 B caps k res hk

lemma matchk_cat_cls {α} (p : Char → Bool) (r2 : RE) (c : Char) (B : List Char)
    (caps : Caps) (k : List Char → Caps → Option α) (res : Option α)
    (hc : p c = true) (hk : matchk r2 B caps k = res) :
    matchk (.cat (.cls p) r2) (c :: B) caps k = res := by
  rw [matchk_cat_eq, matchk_cls_step p c B caps _ hc]
  exact hk

lemma matchk_cat_cls_fail {α} (p : Char → Bool) (r2 : RE) (c : Char)
    (B : List Char) (caps : Caps) (k : List Char → Caps → Option α)
    (hc : p c = false) :
    matchk (.cat (.cls p) r2) (c :: B) caps k = none := by
  rw [matchk_cat_eq, matchk_cls_fail p c B caps _ hc]

lemma matchk_cat_cls_nil {α} (p : Char → Bool) (r2 : RE) (caps : Caps)
    (k : List Char → Caps → Option α) :
    matchk (.cat (.cls p) r2) [] caps k = none := by
  rw [matchk_cat_eq, matchk_cls_nil]

lemma matchk_cat_grp_eq {α} (i : Nat) (r r2 : RE) (cs : List Char) (caps : Caps)
    (k : List Char → Caps → Option α) :
    matchk (.cat (.grp i r) r2) cs caps k =
      matchk r cs caps (fun cs' caps' =>
        matchk r2 cs' ((i, cs.take (cs.length - cs'.length)) :: caps') k) := rfl

lemma matchk_cat_plus_digit {α} (r2 : RE) (d B : List Char) (caps : Caps)
    (k : List Char → Caps → Option α) (res : α)
    (hd : d ≠ []) (hdd : ∀ c ∈ d, c.isDigit = true)
    (hB : B = [] ∨ ∃ c t, B = c :: t ∧ c.isDigit = false)
    (hk : matchk r2 B caps k = some res) :
    matchk (.cat (.plus digitClass) r2) (d ++ B) caps k = some res := by
  rw [matchk_cat_eq]
  exact matchk_plus_step digitClass d B caps _ res hd hdd hB hk

/-- Completeness of the `ip:port` sub-pattern: on a well-shaped
endpoint followed by a non-digit, the matcher consumes exactly the
endpoint and continues. -/
lemma matchk_ipv4_complete {α} (ip X : List Char) (caps : Caps)
    (k : List Char → Caps → Option α) (res : α) (hip : IpShape ip)
    (hX : X = [] ∨ ∃ c t, X = c :: t ∧ c.isDigit = false)
    (hk : k X caps = some res) :
    matchk ipv4portRE (ip ++ X) caps k = some res := by
  obtain ⟨d1, d2, d3, d4, d5, rfl, ⟨h1n, h1d⟩, ⟨h2n, h2d⟩, ⟨h3n, h3d⟩,
    ⟨h4n, h4d⟩, ⟨h5n, h5d⟩⟩ := hip
  have hin : (d1 ++ '.' :: (d2 ++ '.' :: (d3 ++ '.' :: (d4 ++ ':' :: d5)))) ++ X =
      d1 ++ '.' :: (d2 ++ '.' :: (d3 ++ '.' :: (d4 ++ ':' :: (d5 ++ X)))) := by
    simp [List.append_assoc]
  rw [hin, ipv4portRE]
  apply matchk_cat_plus_digit _ d1 _ caps k res h1n h1d
    (Or.inr ⟨'.', _, rfl, by decide⟩)
  apply matchk_cat_lit1 '.' "." rfl
  apply matchk_cat_plus_digit _ d2 _ caps k res h2n h2d
    (Or.inr ⟨'.', _, rfl, by decide⟩)
  apply matchk_cat_lit1 '.' "." rfl
  apply matchk_cat_plus_digit _ d3 _ caps k res h3n h3d
    (Or.inr ⟨'.', _, rfl, by decide⟩)
  apply matchk_cat_lit1 '.' "." rfl
  apply matchk_cat_plus_digit _ d4 _ caps k res h4n h4d
    (Or.inr ⟨':', _, rfl, by decide⟩)
  apply matchk_cat_lit1 ':' ":" rfl
  have hX' : X = [] ∨ ∃ c t, X = c :: t ∧ digitClass c = false := hX
  exact matchk_plus_step digitClass d5 X caps _ res h5n h5d hX' hk

/-- The pattern suffix "`ip:port` endpoint, then a separator" cannot
match inside a stretch that carries no endpoint-followed-by-separator
and runs to a newline or to the end of the input. -/
lemma matchk_grp_ipv4_fail2 {α} (g tail : List Char) (caps : Caps)
    (k : List Char → Caps → Option α)
    (hg : ∀ w y b, g = w ++ y :: b → IpShape w → sepClass y = false)
    (htail : tail = [] ∨ ∃ t, tail = '\n' :: t) :
    matchk (.cat (.grp 2 ipv4portRE) (.cls sepClass)) (g ++ tail) caps k = none := by
  apply matchk_none_of_no_lang
  intro w0 cs' heq hlang
  simp only [Lang] at hlang
  obtain ⟨w1, w2, rfl, hl1, y, rfl, hy⟩ := hlang
  have hip : IpShape w1 := IpShape_of_Lang_ipv4 w1 hl1
  have heq2 : g ++ tail = w1 ++ y :: cs' := by
    rw [heq]; simp
  rcases Nat.lt_trichotomy w1.length g.length with hlt | heql | hgt
  · -- the endpoint ends strictly inside the stretch: the very next
    -- character of the stretch would have to be a separator
    have htake : g.take w1.length = w1 := by
      have h1 : (g ++ tail).take w1.length = g.take w1.length :=
        List.take_append_of_le_length (le_of_lt hlt)
      rw [heq2, List.take_left] at h1
      exact h1.symm
    have hdrop : g.drop w1.length ++ tail = y :: cs' := by
      have h1 : (g ++ tail).drop w1.length = g.drop w1.length ++ tail :=
        List.drop_append_of_le_length (le_of_lt hlt)
      rw [heq2, List.drop_left] at h1
      exact h1.symm
    have hne : g.drop w1.length ≠ [] := by
      intro h
      have := congrArg List.length h
      rw [List.length_drop] at this
      simp only [List.length_nil] at this
      omega
    obtain ⟨d, ds, hdds⟩ := List.exists_cons_of_ne_nil hne
    rw [hdds] at hdrop
    have hdy : d = y := by
      have := congrArg (fun l => l.head?) hdrop
      simpa using this
    have hgsplit : g = w1 ++ y :: ds := by
      conv_lhs => rw [← List.take_append_drop w1.length g]
      rw [htake, hdds, hdy]
    have hfalse := hg w1 y ds hgsplit hip
    rw [hfalse] at hy
    cases hy
  · -- the endpoint ends exactly at the guard: the separator would
    -- have to be the newline (or is missing entirely)
    rcases htail with rfl | ⟨t, rfl⟩
    · have := congrArg List.length heq2
      simp only [List.length_append, List.length_nil, List.length_cons] at this
      omega
    · have htake : g = w1 := by
        have h1 : (g ++ '\n' :: t).take w1.length = g.take w1.length :=
          List.take_append_of_le_length (le_of_eq heql)
        rw [heq2, List.take_left, heql, List.take_length] at h1
        exact h1.symm
      have h2 : ('\n' :: t : List Char) = y :: cs' := by
        have h3 := congrArg (List.drop w1.length) heq2
        rw [htake] at h3
        rwa [List.drop_left, List.drop_left] at h3
      injection h2 with hy2 _
      rw [← hy2] at hy
      exact absurd hy (by decide)
  · -- the endpoint would have to straddle the guard newline
    rcases htail with rfl | ⟨t, rfl⟩
    · have := congrArg List.length heq2
      simp only [List.length_append, List.length_nil, List.length_cons] at this
      omega
    · have h1 : (g ++ '\n' :: t).take (g.length + 1) = g ++ ['\n'] := by
        rw [List.take_append 1]
        rfl
      have h2 : (g ++ '\n' :: t).take (g.length + 1) = w1.take (g.length + 1) := by
        rw [heq2]
        exact List.take_append_of_le_length (by omega)
      have hmem : '\n' ∈ w1.take (g.length + 1) := by
        rw [← h2, h1]
        simp
      exact absurd rfl (IpShape_no_nl w1 hip '\n' (List.take_subset _ w1 hmem))

lemma matchk_cls_step' {α} (p : Char → Bool) (c : Char) (B : List Char)
    (caps : Caps) (k : List Char → Caps → Option α) (res : Option α)
    (hc : p c = true) (hk : k B caps = res) :
    matchk (.cls p) (c :: B) caps k = res := by
  rw [matchk_cls_step p c B caps k hc]
  exact hk

/-- Greedy completeness on a well-formed `CLIENT_LIST` line: the
version-2/3 pattern matches at the start of the line, backtracking the
greedy `(.+)` until the separator after the username, and extracts
exactly the username and the endpoint.  From the post-endpoint
separator onwards the line carries no further separator-delimited
endpoint, so no longer extent of the greedy group can complete a
match. -/
lemma matchTwo_client_line (s0 s1 s2 : Char) (u ip rest tail : List Char)
    (hs0 : sepClass s0 = true) (hs1 : sepClass s1 = true)
    (hs2 : sepClass s2 = true)
    (hu : u ≠ []) (hunl : ∀ c ∈ u, c ≠ '\n')
    (hip : IpShape ip)
    (hrnl : ∀ c ∈ rest, c ≠ '\n')
    (hnse : noSecondEndpoint (s2 :: rest) = true)
    (htail : tail = [] ∨ ∃ t, tail = '\n' :: t) :
    matchTwo clientListRE
        ("CLIENT_LIST".toList ++
          s0 :: (u ++ s1 :: (ip ++ s2 :: (rest ++ tail)))) =
      some (u, ip, rest ++ tail) := by
  rw [matchTwo, clientListRE]
  apply matchk_cat_lit
  apply matchk_cat_cls _ _ _ _ _ _ _ hs0
  rw [matchk_cat_grp_eq]
  have hAdot : ∀ c ∈ u ++ s1 :: (ip ++ s2 :: rest), dotClass c = true := by
    intro c hc
    simp only [List.mem_append, List.mem_cons] at hc
    rw [dotClass, decide_eq_true_eq]
    rcases hc with h | rfl | h | rfl | h
    · exact hunl c h
    · exact (sep_facts _ hs1).1
    · exact IpShape_no_nl ip hip c h
    · exact (sep_facts _ hs2).1
    · exact hrnl c h
  have htw : (u ++ s1 :: (ip ++ s2 :: (rest ++ tail))).takeWhile dotClass =
      u ++ s1 :: (ip ++ s2 :: rest) := by
    rw [show u ++ s1 :: (ip ++ s2 :: (rest ++ tail)) =
        (u ++ s1 :: (ip ++ s2 :: rest)) ++ tail from by simp]
    refine takeWhile_all_append _ _ _ hAdot ?_
    rcases htail with rfl | ⟨t, rfl⟩
    · exact Or.inl rfl
    · exact Or.inr ⟨'\n', t, rfl, by decide⟩
  have hlenA : (u ++ s1 :: (ip ++ s2 :: rest)).length =
      u.length + 1 + ip.length + 1 + rest.length := by
    simp only [List.length_append, List.length_cons]
    omega
  refine matchk_plus_backtrack dotClass _ _ _ _ u.length
    (by have := List.length_pos.2 hu; omega) ?_ ?_ ?_
  · rw [htw, hlenA]
    omega
  · -- the successful extent: group 1 ends right before the separator s1
    rw [List.drop_left u (s1 :: (ip ++ s2 :: (rest ++ tail)))]
    apply matchk_cat_cls _ _ _ _ _ _ _ hs1
    rw [matchk_cat_grp_eq]
    apply matchk_ipv4_complete ip (s2 :: (rest ++ tail)) _ _ _ hip
      (Or.inr ⟨s2, _, rfl, (sep_facts _ hs2).2.1⟩)
    apply matchk_cls_step' _ _ _ _ _ _ hs2
    have he1 : (u ++ s1 :: (ip ++ s2 :: (rest ++ tail))).take
        ((u ++ s1 :: (ip ++ s2 :: (rest ++ tail))).length -
          (s1 :: (ip ++ s2 :: (rest ++ tail))).length) = u := by
      rw [show (u ++ s1 :: (ip ++ s2 :: (rest ++ tail))).length =
          u.length + (s1 :: (ip ++ s2 :: (rest ++ tail))).length from by simp,
        Nat.add_sub_cancel]
      exact List.take_left u _
    have he2 : (ip ++ s2 :: (rest ++ tail)).take
        ((ip ++ s2 :: (rest ++ tail)).length -
          (s2 :: (rest ++ tail)).length) = ip := by
      rw [show (ip ++ s2 :: (rest ++ tail)).length =
          ip.length + (s2 :: (rest ++ tail)).length from by simp,
        Nat.add_sub_cancel]
      exact List.take_left ip _
    simp only [List.lookup, he1, he2]
    rfl
  · -- every longer extent of the greedy group fails
    intro m hm1 hm2
    rw [htw, hlenA] at hm2
    obtain ⟨j, rfl⟩ : ∃ j, m = u.length + 1 + j := ⟨m - u.length - 1, by omega⟩
    rw [drop_after u s1 _ j]
    rcases Nat.lt_trichotomy j ip.length with hj | hj | hj
    · -- inside the endpoint: the next character is never a separator
      have hne : ip.drop j ≠ [] := by
        intro h
        have := congrArg List.length h
        rw [List.length_drop] at this
        simp at this
        omega
      obtain ⟨c, r2, hcr⟩ := List.exists_cons_of_ne_nil hne
      have hcmem : c ∈ ip := List.drop_subset j ip (hcr ▸ List.mem_cons_self c r2)
      have hdrop : (ip ++ s2 :: (rest ++ tail)).drop j =
          c :: (r2 ++ s2 :: (rest ++ tail)) := by
        rw [List.drop_append_of_le_length (le_of_lt hj), hcr]
        rfl
      rw [hdrop]
      exact matchk_cat_cls_fail sepClass _ c _ _ _ (IpShape_not_sep ip hip c hcmem)
    · -- right after the endpoint: the trailing fields carry no
      -- further endpoint followed by a separator
      subst hj
      rw [List.drop_left ip (s2 :: (rest ++ tail))]
      have hs' : startsWithEndpointSep rest = false :=
        noSecondEndpoint_split [] rest s2 hnse hs2
      exact matchk_cat_cls _ _ _ _ _ _ none hs2
        (matchk_grp_ipv4_fail2 rest tail _ _ (no_endpoint_then_sep rest hs') htail)
    · -- inside the trailing fields: same, from any separator there
      obtain ⟨j2, rfl⟩ : ∃ j2, j = ip.length + 1 + j2 :=
        ⟨j - ip.length - 1, by omega⟩
      rw [drop_after ip s2 _ j2]
      rcases Nat.lt_or_ge j2 rest.length with hj2lt | hj2ge
      · have hne : rest.drop j2 ≠ [] := by
          intro h
          have := congrArg List.length h
          rw [List.length_drop] at this
          simp at this
          omega
        obtain ⟨c, r2, hcr⟩ := List.exists_cons_of_ne_nil hne
        have hdrop : (rest ++ tail).drop j2 = c :: (r2 ++ tail) := by
          rw [List.drop_append_of_le_length (le_of_lt hj2lt), hcr]
          rfl
        rw [hdrop]
        by_cases hsep : sepClass c = true
        · have hrest_eq : rest = rest.take j2 ++ c :: r2 := by
            rw [← hcr, List.take_append_drop]
          have hs' : startsWithEndpointSep r2 = false := by
            refine noSecondEndpoint_split (s2 :: rest.take j2) r2 c ?_ hsep
            rw [List.cons_append, ← hrest_eq]
            exact hnse
          exact matchk_cat_cls _ _ _ _ _ _ none hsep
            (matchk_grp_ipv4_fail2 r2 tail _ _ (no_endpoint_then_sep r2 hs') htail)
        · exact matchk_cat_cls_fail sepClass _ c _ _ _ (by simpa using hsep)
      · have hj2 : j2 = rest.length := by omega
        subst hj2
        rw [List.drop_left rest tail]
        rcases htail with rfl | ⟨t, rfl⟩
        · exact matchk_cat_cls_nil sepClass _ _ _
        · exact matchk_cat_cls_fail sepClass _ '\n' _ _ _ (by decide)

/-- The version-2/3 pattern cannot match at the start of a line that
does not begin with `CLIENT_LIST`. -/
lemma isPre_of_append_eq (a : List Char) :
    ∀ (l t2 tail : List Char), a ++ t2 = l ++ tail → a.length ≤ l.length →
      a.isPrefixOf l = true := by
  induction a with
  | nil => intro l _ _ _ _; simp [List.isPrefixOf]
  | cons x a' ih =>
    intro l t2 tail heq hlen
    cases l with
    | nil => simp at hlen
    | cons y l' =>
      rw [List.cons_append, List.cons_append] at heq
      injection heq with h1 h2
      subst h1
      simp only [List.isPrefixOf, Bool.and_eq_true, beq_self_eq_true, true_and]
      exact ih l' t2 tail h2 (by simpa using hlen)

lemma matchTwo_client_fail_otherline (l tail : List Char)
    (hnp : "CLIENT_LIST".toList.isPrefixOf l = false)
    (htail : tail = [] ∨ ∃ t, tail = '\n' :: t) :
    matchTwo clientListRE (l ++ tail) = none := by
  have hpre : ¬ "CLIENT_LIST".toList.isPrefixOf (l ++ tail) = true := by
    intro h
    obtain ⟨t2, ht2⟩ := (isPre_iff _ _).1 h
    by_cases hlen : "CLIENT_LIST".toList.length ≤ l.length
    · rw [isPre_of_append_eq _ l t2 tail ht2 hlen] at hnp
      cases hnp
    · have hLITlen : "CLIENT_LIST".toList.length = 11 := rfl
      rcases htail with rfl | ⟨t, rfl⟩
      · have := congrArg List.length ht2
        simp only [List.length_append, List.append_nil] at this
        omega
      · have h1 : ("CLIENT_LIST".toList ++ t2).take (l.length + 1) =
            "CLIENT_LIST".toList.take (l.length + 1) :=
          List.take_append_of_le_length (by omega)
        rw [ht2, List.take_append 1] at h1
        have hmem : '\n' ∈ "CLIENT_LIST".toList.take (l.length + 1) := by
          rw [← h1]
          simp
        have hmem2 : '\n' ∈ "CLIENT_LIST".toList :=
          List.take_subset _ _ hmem
        exact absurd hmem2 (by decide)
  rw [matchTwo, clientListRE, matchk_cat_eq]
  simp only [matchk]
  rw [if_neg hpre]

/-- Walking the anchored scanner across one line that produces no
match (no position after the line start is a line start, so at most
the entry position attempts a match). -/
lemma scan_skip_line (r : RE) (suffix : List Char) :
    ∀ (l : List Char) (fuel : Nat) (b : Bool),
      (∀ c ∈ l, c ≠ '\n') →
      (b = true → matchTwo r (l ++ '\n' :: suffix) = none) →
      findAllFuel true r (l.length + 1 + fuel) (l ++ '\n' :: suffix) b =
        findAllFuel true r fuel suffix true := by
  intro l
  induction l with
  | nil =>
    intro fuel b _ hfail
    rw [show ([] : List Char).length + 1 + fuel = fuel + 1 from by
      simp [Nat.add_comm]]
    cases b with
    | false => simp [findAllFuel]
    | true =>
      have hf := hfail rfl
      rw [List.nil_append] at hf
      simp [findAllFuel, hf]
  | cons c l' ih =>
    intro fuel b hnl hfail
    have hcnl : c ≠ '\n' := hnl c (List.mem_cons_self c l')
    have hstep : (c :: l') ++ '\n' :: suffix = c :: (l' ++ '\n' :: suffix) := rfl
    rw [show (c :: l').length + 1 + fuel = (l'.length + 1 + fuel) + 1 from by
      simp; omega]
    rw [hstep]
    cases b with
    | false =>
      rw [findAllFuel]
      rw [show (true && !false) = true from rfl, if_pos rfl]
      rw [show decide (c = '\n') = false from by simp [hcnl]]
      exact ih fuel false (fun x hx => hnl x (List.mem_cons_of_mem c hx))
        (fun h => by cases h)
    | true =>
      have hf := hfail rfl
      rw [hstep] at hf
      rw [findAllFuel]
      rw [show (true && !true) = false from rfl]
      rw [if_neg (by simp), hf]
      rw [show decide (c = '\n') = false from by simp [hcnl]]
      exact ih fuel false (fun x hx => hnl x (List.mem_cons_of_mem c hx))
        (fun h => by cases h)

/-- Walking the anchored scanner across a final line that produces no
match. -/
lemma scan_skip_last (r : RE) :
    ∀ (l : List Char) (fuel : Nat) (b : Bool),
      (∀ c ∈ l, c ≠ '\n') →
      (b = true → matchTwo r l = none) →
      findAllFuel true r fuel l b = [] := by
  intro l
  induction l with
  | nil =>
    intro fuel b _ _
    cases fuel <;> rw [findAllFuel]
  | cons c l' ih =>
    intro fuel b hnl hfail
    have hcnl : c ≠ '\n' := hnl c (List.mem_cons_self c l')
    cases fuel with
    | zero => rw [findAllFuel]
    | succ f2 =>
      cases b with
      | false =>
        rw [findAllFuel]
        rw [show (true && !false) = true from rfl, if_pos rfl]
        rw [show decide (c = '\n') = false from by simp [hcnl]]
        exact ih f2 false (fun x hx => hnl x (List.mem_cons_of_mem c hx))
          (fun h => by cases h)
      | true =>
        have hf := hfail rfl
        rw [findAllFuel]
        rw [show (true && !true) = false from rfl]
        rw [if_neg (by simp), hf]
        rw [show decide (c = '\n') = false from by simp [hcnl]]
        exact ih f2 false (fun x hx => hnl x (List.mem_cons_of_mem c hx))
          (fun h => by cases h)

/-- A successful attempt at a line-start position emits the groups and
resumes at the end of the match. -/
lemma findAllFuel_attempt (r : RE) (fuel : Nat) (cs : List Char) (hne : cs ≠ [])
    (g1 g2 cs' : List Char) (hmt : matchTwo r cs = some (g1, g2, cs'))
    (hlt : cs'.length < cs.length) :
    findAllFuel true r (fuel+1) cs true =
      (g1, g2) :: findAllFuel true r fuel cs'
        (lastIsNL (cs.take (cs.length - cs'.length))) := by
  obtain ⟨c, rest, rfl⟩ := List.exists_cons_of_ne_nil hne
  rw [findAllFuel]
  rw [show (true && !true) = false from rfl]
  rw [if_neg (by simp), hmt]
  have hlen : (c :: rest).length = rest.length + 1 := rfl
  rw [hlen] at hlt
  have hred :
      (match some (g1, g2, cs') with
        | none => findAllFuel true r fuel rest (decide (c = '\n'))
        | some (g1, g2, cs') =>
          if cs'.length < rest.length + 1 then
            (g1, g2) :: findAllFuel true r fuel cs'
              (lastIsNL (List.take (rest.length + 1 - cs'.length) (c :: rest)))
          else findAllFuel true r fuel rest (decide (c = '\n'))) =
        if cs'.length < rest.length + 1 then
          (g1, g2) :: findAllFuel true r fuel cs'
            (lastIsNL (List.take (rest.length + 1 - cs'.length) (c :: rest)))
        else findAllFuel true r fuel rest (decide (c = '\n')) := rfl
  rw [hred, if_pos hlt]
  rfl

/-! ## From the decidable endpoint check back to the structural shape -/

lemma length_four_decomp {α} (l : List α) (h : l.length = 4) :
    ∃ a b c d, l = [a, b, c, d] := by
  rcases l with _ | ⟨a, l⟩
  · simp at h
  rcases l with _ | ⟨b, l⟩
  · simp at h
  rcases l with _ | ⟨c, l⟩
  · simp at h
  rcases l with _ | ⟨d, l⟩
  · simp at h
  rcases l with _ | ⟨e, l⟩
  · exact ⟨a, b, c, d, rfl⟩
  · simp at h

lemma ne_nil_of_isEmpty_false {α} (l : List α) (h : l.isEmpty = false) :
    l ≠ [] := by
  cases l with
  | nil => cases h
  | cons a b => simp

lemma IpShape_of_isIpPortB (w : List Char) (h : isIpPortB w = true) :
    IpShape w := by
  cases hs : splitOnChar ':' w with
  | nil => exact absurd hs (splitOnChar_ne_nil ':' w)
  | cons addr ls =>
    cases ls with
    | nil => rw [isIpPortB, hs] at h; cases h
    | cons port ls2 =>
      cases ls2 with
      | cons x ls3 => rw [isIpPortB, hs] at h; cases h
      | nil =>
        rw [isIpPortB_eq_of_split w addr port hs] at h
        simp only [Bool.and_eq_true, decide_eq_true_eq, List.all_eq_true,
          Bool.not_eq_true', Bool.and_eq_true] at h
        obtain ⟨⟨hlen, hall⟩, hpe, hpd⟩ := h
        obtain ⟨e1, e2, e3, e4, hd⟩ := length_four_decomp _ hlen
        have haddr : addr = e1 ++ '.' :: (e2 ++ '.' :: (e3 ++ '.' :: e4)) := by
          have hrec := joinSep_splitOnChar '.' addr
          rw [hd] at hrec
          simp only [joinSep] at hrec
          exact hrec.symm
        have hw : w = addr ++ ':' :: port := by
          have hrec := joinSep_splitOnChar ':' w
          rw [hs] at hrec
          simp only [joinSep] at hrec
          exact hrec.symm
        have hfact : ∀ e ∈ [e1, e2, e3, e4], e ≠ [] ∧ ∀ c ∈ e, c.isDigit = true := by
          intro e he
          have := hall e (hd ▸ he)
          exact ⟨ne_nil_of_isEmpty_false e this.1, this.2⟩
        refine ⟨e1, e2, e3, e4, port, ?_, ?_, ?_, ?_, ?_, ?_⟩
        · rw [hw, haddr]
          simp [List.append_assoc]
        · exact hfact e1 (by simp)
        · exact hfact e2 (by simp)
        · exact hfact e3 (by simp)
        · exact hfact e4 (by simp)
        · exact ⟨ne_nil_of_isEmpty_false port hpe, hpd⟩

/-- The facts packed into well-formedness of a record line. -/
lemma wfLine_record_facts (s0 : Char) (u : List Char) (s1 : Char)
    (ip : List Char) (s2 : Char) (rest : List Char)
    (h : wfLine (.record s0 u s1 ip s2 rest) = true) :
    sepClass s0 = true ∧ sepClass s1 = true ∧ sepClass s2 = true ∧
      u ≠ [] ∧ (∀ c ∈ u, c ≠ '\n') ∧ IpShape ip ∧
      (∀ c ∈ rest, c ≠ '\n') ∧ noSecondEndpoint (s2 :: rest) = true := by
  rw [wfLine] at h
  simp only [Bool.and_eq_true, Bool.not_eq_true', List.all_eq_true,
    decide_eq_true_eq] at h
  obtain ⟨⟨⟨⟨⟨hs0, hs1⟩, hs2⟩, hue, hunl⟩, hip⟩, hrnl, hnse⟩ := h
  exact ⟨hs0, hs1, hs2, ne_nil_of_isEmpty_false u hue, hunl,
    IpShape_of_isIpPortB ip hip, hrnl, hnse⟩

/-- The facts packed into well-formedness of a non-record line. -/
lemma wfLine_other_facts (l : List Char) (h : wfLine (.other l) = true) :
    (∀ c ∈ l, c ≠ '\n') ∧ "CLIENT_LIST".toList.isPrefixOf l = false := by
  rw [wfLine] at h
  simp only [Bool.and_eq_true, Bool.not_eq_true', List.all_eq_true,
    decide_eq_true_eq] at h
  exact ⟨h.1, h.2⟩

/-! ## Building the dict from matches with distinct usernames -/

lemma pyDictSet_fresh (acc : List (String × Session)) (k : String) (v : Session)
    (h : k ∉ acc.map Prod.fst) :
    pyDictSet acc k v = acc ++ [(k, v)] := by
  rw [pyDictSet, if_neg]
  intro hany
  rw [List.any_eq_true] at hany
  obtain ⟨p, hp, hpk⟩ := hany
  simp only [decide_eq_true_eq] at hpk
  exact h (hpk ▸ List.mem_map_of_mem Prod.fst hp)

lemma mkUserDict_fold_fresh :
    ∀ (ms : List (List Char × List Char)) (acc : List (String × Session)),
      (∀ m ∈ ms, String.mk m.1 ∉ acc.map Prod.fst) →
      (ms.map (fun m => String.mk m.1)).Nodup →
      ms.foldl (fun users m =>
          pyDictSet users (String.mk m.1) (String.mk m.1, String.mk m.2)) acc =
        acc ++ ms.map (fun m => (String.mk m.1, (String.mk m.1, String.mk m.2))) := by
  intro ms
  induction ms with
  | nil => intro acc _ _; simp
  | cons m ms2 ih =>
    intro acc hfresh hnd
    rw [List.foldl_cons,
      pyDictSet_fresh acc _ _ (hfresh m (List.mem_cons_self m ms2))]
    have h1 : ∀ m' ∈ ms2, String.mk m'.1 ∉
        (acc ++ [(String.mk m.1, (String.mk m.1, String.mk m.2))]).map Prod.fst := by
      intro m' hm'
      rw [List.map_append]
      simp only [List.mem_append, List.map_cons, List.map_nil,
        List.mem_singleton, not_or]
      constructor
      · exact hfresh m' (List.mem_cons_of_mem m hm')
      · intro h
        exact (List.nodup_cons.1 hnd).1 (List.mem_map.2 ⟨m', hm', h⟩)
    rw [ih _ h1 (List.nodup_cons.1 hnd).2]
    simp

lemma mkUserDict_nodup (ms : List (List Char × List Char))
    (hnd : (ms.map (fun m => String.mk m.1)).Nodup) :
    mkUserDict ms =
      ms.map (fun m => (String.mk m.1, (String.mk m.1, String.mk m.2))) := by
  have := mkUserDict_fold_fresh ms [] (by intro m _; simp) hnd
  rw [mkUserDict, this]
  simp

/-! ## The anchored scan over a whole well-formed dump -/

lemma renderDump_cons2 (a b : StatusLine) (rest : List StatusLine) :
    joinSep '\n' ((a :: b :: rest).map renderLine) =
      renderLine a ++ '\n' :: joinSep '\n' ((b :: rest).map renderLine) := by
  simp only [List.map_cons]
  rw [joinSep]

lemma scan_statusLines :
    ∀ (lines : List StatusLine) (fuel : Nat),
      lines.all wfLine = true →
      (joinSep '\n' (lines.map renderLine)).length < fuel →
      findAllFuel true clientListRE fuel
          (joinSep '\n' (lines.map renderLine)) true =
        clientRecords lines := by
  intro lines
  induction lines with
  | nil =>
    intro fuel _ _
    show findAllFuel true clientListRE fuel [] true = []
    cases fuel <;> rw [findAllFuel]
  | cons line rest ih =>
    intro fuel hwf hlen
    have hwf' : wfLine line = true ∧ rest.all wfLine = true := by
      rw [List.all_cons, Bool.and_eq_true] at hwf
      exact hwf
    obtain ⟨hwf1, hwf2⟩ := hwf'
    cases rest with
    | nil =>
      have hjoin : joinSep '\n' ((line :: []).map renderLine) =
          renderLine line := by
        simp only [List.map_cons, List.map_nil]
        rfl
      rw [hjoin] at hlen ⊢
      cases line with
      | other l =>
        obtain ⟨hnl, hnp⟩ := wfLine_other_facts l hwf1
        show findAllFuel true clientListRE fuel l true = []
        apply scan_skip_last clientListRE l fuel true hnl
        intro _
        have h := matchTwo_client_fail_otherline l [] hnp (Or.inl rfl)
        rwa [List.append_nil] at h
      | record s0 u s1 ip s2 rest' =>
        obtain ⟨hs0, hs1, hs2, hu, hunl, hip, hrnl, hnse⟩ :=
          wfLine_record_facts s0 u s1 ip s2 rest' hwf1
        have hm := matchTwo_client_line s0 s1 s2 u ip rest' []
          hs0 hs1 hs2 hu hunl hip hrnl hnse (Or.inl rfl)
        rw [List.append_nil] at hm
        have hshape : renderLine (StatusLine.record s0 u s1 ip s2 rest') =
            "CLIENT_LIST".toList ++ s0 :: (u ++ s1 :: (ip ++ s2 :: rest')) := rfl
        rw [hshape] at hlen ⊢
        have hL : ("CLIENT_LIST".toList ++
            s0 :: (u ++ s1 :: (ip ++ s2 :: rest'))).length =
            11 + 1 + u.length + 1 + ip.length + 1 + rest'.length := by
          simp only [List.length_append, List.length_cons,
            show "CLIENT_LIST".toList.length = 11 from rfl]
          omega
        rw [hL] at hlen
        cases fuel with
        | zero => omega
        | succ f2 =>
          have hne : "CLIENT_LIST".toList ++
              s0 :: (u ++ s1 :: (ip ++ s2 :: rest')) ≠ [] := by
            intro h
            have := congrArg List.length h
            rw [hL] at this
            simp at this
          have hlt2 : rest'.length <
              ("CLIENT_LIST".toList ++
                s0 :: (u ++ s1 :: (ip ++ s2 :: rest'))).length := by
            rw [hL]
            omega
          rw [findAllFuel_attempt clientListRE f2 _ hne u ip rest' hm hlt2]
          show (u, ip) :: _ = [(u, ip)]
          congr 1
          have hsplit2 : "CLIENT_LIST".toList ++
              s0 :: (u ++ s1 :: (ip ++ s2 :: rest')) =
              ("CLIENT_LIST".toList ++ s0 :: (u ++ s1 :: (ip ++ [s2]))) ++
                rest' := by
            simp [List.append_assoc]
          have hflag : lastIsNL
              (("CLIENT_LIST".toList ++
                s0 :: (u ++ s1 :: (ip ++ s2 :: rest'))).take
                (("CLIENT_LIST".toList ++
                  s0 :: (u ++ s1 :: (ip ++ s2 :: rest'))).length -
                  rest'.length)) = false := by
            rw [hsplit2, take_consumed,
              show "CLIENT_LIST".toList ++ s0 :: (u ++ s1 :: (ip ++ [s2])) =
                ("CLIENT_LIST".toList ++ s0 :: (u ++ s1 :: ip)) ++ [s2] from by
                simp [List.append_assoc]]
            exact lastIsNL_concat _ s2 (sep_facts s2 hs2).1
          rw [hflag]
          exact scan_skip_last clientListRE rest' f2 false hrnl
            (fun h => Bool.noConfusion h)
    | cons line2 rest2 =>
      rw [renderDump_cons2 line line2 rest2] at hlen ⊢
      cases line with
      | other l =>
        obtain ⟨hnl, hnp⟩ := wfLine_other_facts l hwf1
        have hshape : renderLine (StatusLine.other l) = l := rfl
        rw [hshape] at hlen ⊢
        have hLlen : (l ++ '\n' :: joinSep '\n'
            ((line2 :: rest2).map renderLine)).length =
            l.length + 1 +
              (joinSep '\n' ((line2 :: rest2).map renderLine)).length := by
          simp only [List.length_append, List.length_cons]
          omega
        rw [hLlen] at hlen
        obtain ⟨f2, rfl⟩ : ∃ f2, fuel = l.length + 1 + f2 :=
          ⟨fuel - l.length - 1, by omega⟩
        have hfail : true = true →
            matchTwo clientListRE
              (l ++ '\n' :: joinSep '\n' ((line2 :: rest2).map renderLine)) =
              none := fun _ =>
          matchTwo_client_fail_otherline l _ hnp (Or.inr ⟨_, rfl⟩)
        rw [scan_skip_line clientListRE _ l f2 true hnl hfail]
        exact ih f2 hwf2 (by omega)
      | record s0 u s1 ip s2 rest' =>
        obtain ⟨hs0, hs1, hs2, hu, hunl, hip, hrnl, hnse⟩ :=
          wfLine_record_facts s0 u s1 ip s2 rest' hwf1
        have hm := matchTwo_client_line s0 s1 s2 u ip rest'
          ('\n' :: joinSep '\n' ((line2 :: rest2).map renderLine))
          hs0 hs1 hs2 hu hunl hip hrnl hnse (Or.inr ⟨_, rfl⟩)
        have hshape : renderLine (StatusLine.record s0 u s1 ip s2 rest') ++
            '\n' :: joinSep '\n' ((line2 :: rest2).map renderLine) =
            "CLIENT_LIST".toList ++ s0 :: (u ++ s1 :: (ip ++ s2 ::
              (rest' ++ '\n' :: joinSep '\n'
                ((line2 :: rest2).map renderLine)))) := by
          show ("CLIENT_LIST".toList ++ s0 :: (u ++ s1 :: (ip ++ s2 :: rest'))) ++
              '\n' :: joinSep '\n' ((line2 :: rest2).map renderLine) = _
          simp [List.append_assoc]
        rw [hshape] at hlen ⊢
        have hL : ("CLIENT_LIST".toList ++ s0 :: (u ++ s1 :: (ip ++ s2 ::
            (rest' ++ '\n' :: joinSep '\n'
              ((line2 :: rest2).map renderLine))))).length =
            11 + 1 + u.length + 1 + ip.length + 1 + rest'.length + 1 +
              (joinSep '\n' ((line2 :: rest2).map renderLine)).length := by
          simp only [List.length_append, List.length_cons,
            show "CLIENT_LIST".toList.length = 11 from rfl]
          omega
        rw [hL] at hlen
        cases fuel with
        | zero => omega
        | succ f2 =>
          have hne : "CLIENT_LIST".toList ++ s0 :: (u ++ s1 :: (ip ++ s2 ::
              (rest' ++ '\n' :: joinSep '\n'
                ((line2 :: rest2).map renderLine)))) ≠ [] := by
            intro h
            have := congrArg List.length h
            rw [hL] at this
            simp at this
          have hlt2 : (rest' ++ '\n' :: joinSep '\n'
              ((line2 :: rest2).map renderLine)).length <
              ("CLIENT_LIST".toList ++ s0 :: (u ++ s1 :: (ip ++ s2 ::
                (rest' ++ '\n' :: joinSep '\n'
                  ((line2 :: rest2).map renderLine))))).length := by
            rw [hL]
            simp only [List.length_append, List.length_cons]
            omega
          rw [findAllFuel_attempt clientListRE f2 _ hne u ip _ hm hlt2]
          show (u, ip) :: _ = (u, ip) :: clientRecords (line2 :: rest2)
          congr 1
          obtain ⟨f3, rfl⟩ : ∃ f3, f2 = rest'.length + 1 + f3 :=
            ⟨f2 - rest'.length - 1, by omega⟩
          have hsplit2 : "CLIENT_LIST".toList ++ s0 :: (u ++ s1 :: (ip ++ s2 ::
              (rest' ++ '\n' :: joinSep '\n'
                ((line2 :: rest2).map renderLine)))) =
              ("CLIENT_LIST".toList ++ s0 :: (u ++ s1 :: (ip ++ [s2]))) ++
                (rest' ++ '\n' :: joinSep '\n'
                  ((line2 :: rest2).map renderLine)) := by
            simp [List.append_assoc]
          have hflag : lastIsNL
              (("CLIENT_LIST".toList ++ s0 :: (u ++ s1 :: (ip ++ s2 ::
                (rest' ++ '\n' :: joinSep '\n'
                  ((line2 :: rest2).map renderLine))))).take
                (("CLIENT_LIST".toList ++ s0 :: (u ++ s1 :: (ip ++ s2 ::
                  (rest' ++ '\n' :: joinSep '\n'
                    ((line2 :: rest2).map renderLine))))).length -
                  (rest' ++ '\n' :: joinSep '\n'
                    ((line2 :: rest2).map renderLine)).length)) = false := by
            rw [hsplit2, take_consumed,
              show "CLIENT_LIST".toList ++ s0 :: (u ++ s1 :: (ip ++ [s2])) =
                ("CLIENT_LIST".toList ++ s0 :: (u ++ s1 :: ip)) ++ [s2] from by
                simp [List.append_assoc]]
            exact lastIsNL_concat _ s2 (sep_facts s2 hs2).1
          rw [hflag]
          rw [scan_skip_line clientListRE _ rest' f3 false hrnl
            (fun h => Bool.noConfusion h)]
          exact ih f3 hwf2 (by omega)

/-! ## Claim C3: record extraction from a version-2/3 dump

C3 as stated fails in two independent ways.  First, it only asks the
dump to *contain* a `TITLE` line; by the C5 counterexample the parser
then need not take the version-2/3 branch at all.  Second, it asks
nothing of a record's trailing fields; when they carry another
separator-delimited endpoint-shaped field, the greedy `(.+)` username
group captures through to that later field and the entry is keyed by
the captured-through text instead of the username.  With the amended
sniff condition — the text begins with `TITLE` — and the amended
record condition — no second separator-delimited endpoint in the
trailing fields — the record extraction is exact. -/

/-- Counterexample to C3 as stated, in both respects.  Part one: this
dump contains a `TITLE` line (its second line) and exactly one
well-formed tab-separated `CLIENT_LIST` record with a distinct
username, yet `getusers` returns the empty mapping instead of the
one-record mapping, because the version sniff only looks at the start
of the text and the fallback matcher finds no comma-delimited record.
Part two: this dump begins with `TITLE` and has exactly one record
line with username `u`, a valid dotted-quad endpoint `1.2.3.4:5` and
a comma after it — everything the claim's well-formedness asks — but
its trailing fields contain the endpoint-shaped field `5.6.7.8:9`
between commas, so `getusers` keys the single entry by the greedy
capture `u,1.2.3.4:5,extra` paired with `5.6.7.8:9`, not by `u`. -/
theorem getusers_v2_records_counterexample :
    (([.other "HEADER".toList, .other "TITLE x".toList,
        .record '\t' "u".toList '\t' "1.2.3.4:5".toList '\t' [],
        .other "END".toList] : List StatusLine).all wfLine = true ∧
      containsTitleLine (renderDump
        [.other "HEADER".toList, .other "TITLE x".toList,
          .record '\t' "u".toList '\t' "1.2.3.4:5".toList '\t' [],
          .other "END".toList]) = true ∧
      clientRecords
        [.other "HEADER".toList, .other "TITLE x".toList,
          .record '\t' "u".toList '\t' "1.2.3.4:5".toList '\t' [],
          .other "END".toList] = [("u".toList, "1.2.3.4:5".toList)] ∧
      getusers (renderDump
        [.other "HEADER".toList, .other "TITLE x".toList,
          .record '\t' "u".toList '\t' "1.2.3.4:5".toList '\t' [],
          .other "END".toList]) = []) ∧
    (pyStartswith (renderDump
        [.other "TITLE foo".toList,
          .record ',' "u".toList ',' "1.2.3.4:5".toList ','
            "extra,5.6.7.8:9,x".toList]) "TITLE" = true ∧
      isIpPortB "1.2.3.4:5".toList = true ∧
      clientRecords
        [.other "TITLE foo".toList,
          .record ',' "u".toList ',' "1.2.3.4:5".toList ','
            "extra,5.6.7.8:9,x".toList] =
        [("u".toList, "1.2.3.4:5".toList)] ∧
      getusers (renderDump
        [.other "TITLE foo".toList,
          .record ',' "u".toList ',' "1.2.3.4:5".toList ','
            "extra,5.6.7.8:9,x".toList]) =
        [("u,1.2.3.4:5,extra", ("u,1.2.3.4:5,extra", "5.6.7.8:9"))] ∧
      getusers (renderDump
        [.other "TITLE foo".toList,
          .record ',' "u".toList ',' "1.2.3.4:5".toList ','
            "extra,5.6.7.8:9,x".toList]) ≠
        [("u", ("u", "1.2.3.4:5"))]) := by
  exact ⟨⟨by decide, by decide, by decide, by decide⟩,
    by decide, by decide, by decide, by decide, by decide⟩

/-- C3 (amended): for every well-formed version-2/3 dump whose raw
text begins with `TITLE` and whose `CLIENT_LIST` record lines carry
pairwise-distinct usernames, `getusers` returns a mapping with exactly
one entry per record, in order, mapping each record's username to the
pair `(username, "ip:port")`.  Well-formedness of a record line
(`wfLine`) asks for comma-or-tab separators, a non-empty single-line
username, a valid dotted-quad endpoint with a separator after it, and
trailing fields that stay on the line and carry no further
separator-delimited endpoint-shaped field; trailing fields may
otherwise contain anything, including colons. -/
theorem getusers_v2_records (lines : List StatusLine)
    (hwf : lines.all wfLine = true)
    (hTitle : pyStartswith (renderDump lines) "TITLE" = true)
    (hnd : ((clientRecords lines).map (fun m => String.mk m.1)).Nodup) :
    getusers (renderDump lines) =
        (clientRecords lines).map
          (fun m => (String.mk m.1, (String.mk m.1, String.mk m.2))) ∧
      (getusers (renderDump lines)).length = (clientRecords lines).length := by
  have hmain : getusers (renderDump lines) =
      (clientRecords lines).map
        (fun m => (String.mk m.1, (String.mk m.1, String.mk m.2))) := by
    rw [getusers, if_pos hTitle, findAll]
    have htoList : (renderDump lines).toList =
        joinSep '\n' (lines.map renderLine) := rfl
    rw [htoList, scan_statusLines lines _ hwf (by omega)]
    exact mkUserDict_nodup _ hnd
  exact ⟨hmain, by rw [hmain, List.length_map]⟩

/-- Witness for C3 (amended) on a concrete two-record dump; the first
record's trailing field contains colons (as real status timestamps
do) without disturbing the extraction. -/
theorem getusers_v2_records_witness :
    getusers (renderDump
        [.other "TITLE,OpenVPN stats".toList,
          .record ',' "alice".toList ',' "10.0.0.1:4444".toList ','
            "Thu 10:23:45".toList,
          .record '\t' "bob".toList '\t' "10.9.9.9:62980".toList '\t' [],
          .other "END".toList]) =
      (clientRecords
        [.other "TITLE,OpenVPN stats".toList,
          .record ',' "alice".toList ',' "10.0.0.1:4444".toList ','
            "Thu 10:23:45".toList,
          .record '\t' "bob".toList '\t' "10.9.9.9:62980".toList '\t' [],
          .other "END".toList]).map
        (fun m => (String.mk m.1, (String.mk m.1, String.mk m.2))) :=
  (getusers_v2_records
    [.other "TITLE,OpenVPN stats".toList,
      .record ',' "alice".toList ',' "10.0.0.1:4444".toList ','
        "Thu 10:23:45".toList,
      .record '\t' "bob".toList '\t' "10.9.9.9:62980".toList '\t' [],
      .other "END".toList]
    (by decide) (by decide) (by decide)).1

/-! ## Concrete evaluations

Sanity checks of the embedding on concrete inputs, mirroring the
behaviour of the reference implementation (CPython `re`) on the same
inputs. -/

example : _success "SUCCESS: common name 'x' found" = true := by decide
example : _success "ERROR: common name 'x' not found" = false := by decide
example : _success "INFO:OpenVPN" = true := by decide

example :
    getusers "TITLE foo\nCLIENT_LIST,alice,1.2.3.4:5,more\nEND" =
      [("alice", ("alice", "1.2.3.4:5"))] := by decide

example :
    findAll true clientListRE
        "TITLE\nCLIENT_LIST\tbob\t10.0.0.1:4444\tstuff\nCLIENT_LIST,carol,9.8.7.6:1,\nEND".toList =
      [("bob".toList, "10.0.0.1:4444".toList), ("carol".toList, "9.8.7.6:1".toList)] := by decide

example :
    findAll true clientListRE "CLIENT_LIST,u,1.2.3.4:5,x,6.7.8.9:1,y".toList =
      [("u,1.2.3.4:5,x".toList, "6.7.8.9:1".toList)] := by decide

example : findAll true clientListRE "CLIENT_LIST,u,1.2.3.4:5".toList = [] := by decide

example : findAll true clientListRE "HEADER,CLIENT_LIST,u,1.2.3.4:5,".toList = [] := by decide

example :
    findAll true clientListRE "CLIENT_LIST,a:b,1.2.3.4:5,rest".toList =
      [("a:b".toList, "1.2.3.4:5".toList)] := by decide

example :
    findAll false v1RE ",a,1.2.3.4:5,b,6.7.8.9:1".toList =
      [("a,1.2.3.4:5,b".toList, "6.7.8.9:1".toList)] := by decide

example :
    findAll false v1RE "x,a,1.2.3.4:5y,b,6.7.8.9:2z".toList =
      [("a,1.2.3.4:5y,b".toList, "6.7.8.9:2".toList)] := by decide

example : findAll false v1RE "Unknown command\nEND".toList = [] := by decide

example : findAll false v1RE ",,1.2.3.4:5".toList = [] := by decide

example :
    findAll false v1RE ",a,1.2.3.4:5extra".toList =
      [("a".toList, "1.2.3.4:5".toList)] := by decide

example :
    findAll false v1RE "foo\n,a,1.2.3.4:5\nbar".toList =
      [("a".toList, "1.2.3.4:5".toList)] := by decide

example : isIpPortB "10.22.248.22:62980".toList = true := by decide
example : isIpPortB "10.22.248:62980".toList = false := by decide
example : isIpPortB "10.22.248.22".toList = false := by decide
example : containsIpPortB "CLIENT_LIST,u,1.2.3.4:5,".toList = true := by decide
example : containsIpPortB "Unknown command".toList = false := by decide

end VpnKill
